import Mathlib

/-
  Verification of gtirb_lsp_server/gtirb_lsp_server/server.py (GrammaTech
  gtirb-vscode).  The Python server binds lines of an assembly listing to
  GTIRB offsets (block, displacement) and maintains the binding under edits.
  Below, each Python function of interest is translated into an executable
  Lean definition; Python dicts become association lists with Python's
  "last write wins" update semantics, machine integers are Int/Nat, and
  code paths that raise exceptions return Option/Except values.
-/

/-! ## Association lists with Python dict semantics -/

/-- Lookup in an association list: first matching key wins.  Together with
`aupd`, which overwrites in place, this gives Python-dict lookup semantics. -/
def alookup {α β : Type} [DecidableEq α] : List (α × β) → α → Option β
  | [], _ => none
  | p :: rest, k => if p.1 = k then some p.2 else alookup rest k

/-- `d[k] = v` on a Python dict: replace in place if the key is present,
append otherwise. -/
def aupd {α β : Type} [DecidableEq α] : List (α × β) → α → β → List (α × β)
  | [], k, v => [(k, v)]
  | p :: rest, k, v => if p.1 = k then (k, v) :: rest else p :: aupd rest k v

/-- Python `min(list)` (None models the `ValueError` on an empty list). -/
def pyMin : List Int → Option Int
  | [] => none
  | x :: xs => some (xs.foldl min x)

/-- Python `max(list)` (None models the `ValueError` on an empty list). -/
def pyMax : List Int → Option Int
  | [] => none
  | x :: xs => some (xs.foldl max x)

/-- Python `range(lo, hi + 1)` over integers, as a list. -/
def intRange (lo hi : Int) : List Int :=
  (List.range (hi + 1 - lo).toNat).map (fun (n : Nat) => lo + (n : Int))

/-- `mapM` over `Option`, written out (Python: a loop that can raise). -/
def optMapM {α β : Type} (f : α → Option β) : List α → Option (List β)
  | [] => some []
  | x :: xs =>
    match f x, optMapM f xs with
    | some y, some ys => some (y :: ys)
    | _, _ => none

/-! ## GTIRB data model (the slice the server reads) -/

/-- A GTIRB byte block: a UUID, an optional address and a size in bytes.
`gtirb.block.ProxyBlock` referents are represented separately in `Referent`. -/
structure ByteBlock where
  uuid : Nat
  address : Option Nat
  size : Nat
deriving DecidableEq

/-- `gtirb.Offset`: a byte of a block.  In the Python index maps the
`element_id` field holds the block object itself (obtained through
`ir.get_by_uuid`), so we store the block here, not just its UUID. -/
structure Offset where
  element_id : ByteBlock
  displacement : Nat
deriving DecidableEq

/-- A symbol's referent: absent, a ProxyBlock, or a code/data block. -/
inductive Referent where
  | absent
  | proxy (uuid : Nat)
  | block (b : ByteBlock)
deriving DecidableEq

/-- A GTIRB symbol (only the fields the server reads).  Named `GSymbol`
because `Symbol` is taken by the ambient library. -/
structure GSymbol where
  name : String
  referent : Referent
deriving DecidableEq

/-- The slice of a loaded GTIRB IR that the claims touch:
`ir.byte_blocks` and `ir.modules[0].symbols`. -/
structure IRData where
  byteBlocks : List ByteBlock
  symbols : List GSymbol

/-- `ir.get_by_uuid`: the (first) block with the given UUID. -/
def get_by_uuid (ir : IRData) (u : Nat) : Option ByteBlock :=
  ir.byteBlocks.find? (fun b => b.uuid == u)

/-- `symbol_for_name`: first symbol of module 0 whose name matches
(`next(filter(lambda s: s.name == name, ir.modules[0].symbols), None)`). -/
def symbol_for_name (ir : IRData) (name : String) : Option GSymbol :=
  ir.symbols.find? (fun s => s.name == name)

/-! ## offset_to_line: tolerant reverse lookup (server.py lines 292-301) -/

/-- `DISPLACEMENT_INTERVAL = 5` -/
def DISPLACEMENT_INTERVAL : Nat := 5

/-- The scan loop of `offset_to_line`:
`for i in range(d, max(-1, d - DISPLACEMENT_INTERVAL), -1)` tries at most
`tries` displacements `i, i-1, ...` and stops after displacement 0.
A hit is returned only when the stored line is truthy (`if line and
isinstance(line, int)`), so a stored line 0 is skipped and the scan goes on. -/
def otlScan (line_by_offset : List (Offset × Int)) (blk : ByteBlock) :
    Nat → Nat → Option Int
  | 0, _ => none
  | tries + 1, i =>
    match alookup line_by_offset ⟨blk, i⟩ with
    | some l =>
      if l ≠ 0 then some l
      else if i = 0 then none else otlScan line_by_offset blk tries (i - 1)
    | none => if i = 0 then none else otlScan line_by_offset blk tries (i - 1)

/-- `offset_to_line(line_by_offset, offset)` from server.py. -/
def offset_to_line (line_by_offset : List (Offset × Int)) (o : Offset) : Option Int :=
  otlScan line_by_offset o.element_id DISPLACEMENT_INTERVAL o.displacement

/-! ## Characters and strings (Python semantics) -/

/-- The whitespace class of the tokenizing regex, `[ \t\n\r\f\v]`
(also Python's default `strip`/`rstrip` set). -/
def pyIsSpace (c : Char) : Bool :=
  c = ' ' ∨ c = '\t' ∨ c = '\n' ∨ c = '\r' ∨ c = '\x0c' ∨ c = '\x0b'

/-- server.py: `delims = ["+", "-", "[", "]", ":", "{", "}", "*", ",", "(", ")"]` -/
def delims : List Char :=
  ['+', '-', '[', ']', ':', '\x7b', '\x7d', '*', ',', '(', ')']

/-- `replace_delims(line)`: replace every delimiter with a space.  The
source loops over `delims` calling `line.replace(ch, " ")`; since every
pattern is a single character this is a character-wise map. -/
def replace_delims (line : String) : String :=
  String.mk (line.data.map (fun c => if c ∈ delims then ' ' else c))

/-- Line-break characters recognized by Python `str.splitlines`
(restricted to the ASCII ones; the Unicode ones do not occur here). -/
def isLineBreak (c : Char) : Bool :=
  c = '\n' ∨ c = '\r' ∨ c = '\x0b' ∨ c = '\x0c' ∨
    c = '\x1c' ∨ c = '\x1d' ∨ c = '\x1e'

/-- Worker for `pySplitLines`: accumulates the current line (reversed). -/
def splitLinesAux : List Char → List Char → List (List Char)
  | [], acc => if acc.isEmpty then [] else [acc.reverse]
  | '\r' :: '\n' :: cs, acc => acc.reverse :: splitLinesAux cs []
  | c :: cs, acc =>
    if isLineBreak c then acc.reverse :: splitLinesAux cs []
    else splitLinesAux cs (c :: acc)

/-- Python `str.splitlines()`: line breaks terminate lines, a trailing
break does not open an empty final line, `"".splitlines() == []`. -/
def pySplitLines (s : String) : List (List Char) :=
  splitLinesAux s.data []

/-- Python `str.rstrip()` (default whitespace set). -/
def rstrip (s : String) : String :=
  String.mk ((s.data.reverse.dropWhile pyIsSpace).reverse)

/-- `line.split("#")[0]`: the part of the line before the first `#`. -/
def beforeHash (s : String) : String :=
  String.mk (s.data.takeWhile (fun c => c ≠ '#'))

/-- Python list indexing `l[i]`, `none` modelling the `IndexError` on an
out-of-range index.  (Python additionally wraps negative indices; no call
site modelled here passes a negative index, and the failing inputs used
below do not rely on that case.) -/
def pyGet {α : Type} (l : List α) (i : Int) : Option α :=
  if 0 ≤ i ∧ i < l.length then l.get? i.toNat else none

/-- Python `enumerate`, with a starting index. -/
def pyEnum {α : Type} : Nat → List α → List (Nat × α)
  | _, [] => []
  | i, x :: xs => (i, x) :: pyEnum (i + 1) xs

/-- Worker for `pyFind`: first index at which `needle` occurs. -/
def pyFindAux (needle : List Char) : List Char → Nat → Option Nat
  | [], i => if needle.isEmpty then some i else none
  | c :: t, i =>
    if needle.isPrefixOf (c :: t) then some i else pyFindAux needle t (i + 1)

/-- Python `str.find`: index of the first occurrence, `-1` when absent. -/
def pyFind (s sub : String) : Int :=
  match pyFindAux sub.data s.data 0 with
  | some i => (i : Int)
  | none => -1

/-- Substring test, used to model `re.search` on a pattern that is a
literal string (the server compiles `name + ":"`; for the symbol names
exercised here the pattern contains no active regex metacharacter). -/
def strContains (hay needle : String) : Bool :=
  (pyFindAux needle.data hay.data 0).isSome

/-! ## Hexadecimal numerals (Python `hex`, `int(s, 16)`, `uuid.hex`) -/

/-- The hex digit character for a value below 16 (lowercase, as Python). -/
def hexDigitChar (n : Nat) : Char :=
  if n < 10 then Char.ofNat ('0'.toNat + n) else Char.ofNat ('a'.toNat + n - 10)

/-- Value of one hex digit character, either case (as `int(s, 16)`). -/
def hexCharVal (c : Char) : Option Nat :=
  if '0' ≤ c ∧ c ≤ '9' then some (c.toNat - '0'.toNat)
  else if 'a' ≤ c ∧ c ≤ 'f' then some (c.toNat - 'a'.toNat + 10)
  else if 'A' ≤ c ∧ c ≤ 'F' then some (c.toNat - 'A'.toNat + 10)
  else none

/-- Lowercase hex digit test (the `[0-9a-f]` class of the `# EA:` regex). -/
def isHexLower (c : Char) : Bool :=
  ('0' ≤ c ∧ c ≤ '9') ∨ ('a' ≤ c ∧ c ≤ 'f')

/-- The value of a big-endian string of hex digits. -/
def hexVal (l : List Char) : Nat :=
  l.foldl (fun a c => 16 * a + ((hexCharVal c).getD 0)) 0

/-- Fixed-width big-endian hex digits of `n` (`uuid.UUID.hex` is this with
width 32). -/
def toHexFixed : Nat → Nat → List Char
  | 0, _ => []
  | w + 1, n => toHexFixed w (n / 16) ++ [hexDigitChar (n % 16)]

/-- Minimal-width hex digits of a positive number (worker for `pyHex`). -/
def toHexMinAux : Nat → List Char → List Char
  | 0, acc => acc
  | n + 1, acc => toHexMinAux ((n + 1) / 16) (hexDigitChar ((n + 1) % 16) :: acc)
decreasing_by exact Nat.div_lt_self (Nat.succ_pos n) (by omega)

/-- Python `hex(n)` for a non-negative `n`. -/
def pyHex (n : Nat) : String :=
  "0x" ++ String.mk (if n = 0 then ['0'] else toHexMinAux n [])

/-- The trailing-address regex of server.py,
`addr_re = re.compile("# EA: (0x[0-9a-f]+)$")`, applied with `search` and
the captured group parsed with `int(_, 16)`.  Because the pattern is
anchored at the end of the line, a match exists exactly when the line ends
in `"# EA: 0x"` followed by a nonempty run of lowercase hex digits, and
`search` yields the last such run. -/
def eaAddr (line : String) : Option Nat :=
  let rcs := line.data.reverse
  let run := rcs.takeWhile isHexLower
  let pre := rcs.dropWhile isHexLower
  if run.isEmpty then none
  else if ("x0 :AE #".data).isPrefixOf pre then some (hexVal run.reverse)
  else none

/-! ## isolate_token (server.py lines 430-438) -/

/-- The maximal runs of non-whitespace characters of a character list,
with their starting positions: this is `re.finditer("[^ \t\n\r\f\v]+", _)`.
`i` is the position of the head of `l` in the overall string; a
non-whitespace head either extends the run that starts right after it or
opens a new one. -/
def runsTW (i : Nat) (l : List Char) : List (Nat × List Char) :=
  match l with
  | [] => []
  | c :: cs =>
    let rest := runsTW (i + 1) cs
    if pyIsSpace c then rest
    else
      match rest with
      | (j, t) :: rs => if j = i + 1 then (i, c :: t) :: rs else (i, [c]) :: rest
      | [] => [(i, [c])]

/-- `isolate_token(line, pos)`: substitute delimiters, then return the
first maximal non-whitespace run `m` with
`pos >= m.start() and pos <= m.start() + len(m.group())`; empty string if
`pos` is out of bounds or no run qualifies. -/
def isolate_token (line : String) (pos : Int) : String :=
  if pos < 0 ∨ (line.length : Int) ≤ pos then ""
  else
    match (runsTW 0 (replace_delims line).data).find?
        (fun st => decide ((st.1 : Int) ≤ pos ∧ pos ≤ (st.1 : Int) + st.2.length)) with
    | some st => String.mk st.2
    | none => ""

/-! ## Index construction (server.py lines 441-507) -/

/-- `preceding_function_line(current_lines, name, line)`: walk upward from
`line - 1`; stop with the first line containing `name + ":"` (the compiled
regex `name + ":"`, here taken as a literal pattern); abort with `none` on
the first line carrying an `# EA:` address.  `.error` models the
`IndexError` Python would raise when an index is out of range. -/
def pflAux (lines : List String) (nameColon : String) :
    List Int → Except String (Option Int)
  | [] => .ok none
  | idx :: rest =>
    match pyGet lines idx with
    | none => .error "IndexError"
    | some s =>
      if strContains s nameColon then .ok (some idx)
      else if (eaAddr s).isSome then .ok none
      else pflAux lines nameColon rest

/-- `preceding_function_line` itself: the scanned indices are
`line - 1, line - 2, ..., 1` (`for i in range(1, line)` on `line - i`). -/
def preceding_function_line (lines : List String) (name : String) (line : Int) :
    Except String (Option Int) :=
  pflAux lines (name ++ ":") ((intRange 1 (line - 1)).map (fun i => line - i))

/-- The dense `address → (uuid, displacement)` map of `get_line_offset`:
every block with a truthy address (`if block.address:` — so an address of
`None` *or 0* is skipped) contributes one entry per byte; later blocks
overwrite earlier ones at shared addresses. -/
def addrMap (ir : IRData) : List (Nat × (Nat × Nat)) :=
  ir.byteBlocks.foldl
    (fun m b =>
      match b.address with
      | some a =>
        if a ≠ 0 then
          (List.range b.size).foldl (fun m2 i => aupd m2 (a + i) (b.uuid, i)) m
        else m
      | none => m)
    []

/-- The `(address, line)` pairs extracted from the listing text, sorted by
address (`address_lines.sort(key=lambda x: x[0])`; `insertionSort` is a
stable ascending sort, as Python's). -/
def addressLines (docLines : List String) : List (Nat × Int) :=
  List.insertionSort (fun p q => p.1 ≤ q.1)
    ((pyEnum 0 docLines).filterMap
      (fun il => (eaAddr il.2).map (fun a => (a, (il.1 : Int)))))

/-- `get_line_offset(ir, current_lines)`: join the address/line pairs with
the dense address map.  The source indexes the dict with
`address_to_uuid_displacement[address]`, so an address covered by no block
raises `KeyError`; that is the `none` case here. -/
def get_line_offset (ir : IRData) (docLines : List String) :
    Option (List (Int × (Nat × Nat))) :=
  optMapM
    (fun (al : Nat × Int) => (alookup (addrMap ir) al.1).map (fun ud => (al.2, ud)))
    (addressLines docLines)

/-- Worker for `line_offsets_to_maps`: insert the pairs one by one, both
ways.  The source converts each `(uuid, displacement)` to a real
`gtirb.Offset` via `ir.get_by_uuid(uuid)`; a UUID that resolves to no
block would produce an offset with `element_id = None`, unusable by every
consumer, so resolution failure is modelled as `none` here. -/
def lotmAux (ir : IRData) :
    (List (Int × Offset) × List (Offset × Int)) → List (Int × (Nat × Nat)) →
    Option (List (Int × Offset) × List (Offset × Int))
  | acc, [] => some acc
  | acc, (line, ud) :: rest =>
    match get_by_uuid ir ud.1 with
    | none => none
    | some b => lotmAux ir (aupd acc.1 line ⟨b, ud.2⟩, aupd acc.2 ⟨b, ud.2⟩ line) rest

/-- `line_offsets_to_maps(ir, line_offsets)` (server.py lines 495-507). -/
def line_offsets_to_maps (ir : IRData) (line_offsets : List (Int × (Nat × Nat))) :
    Option (List (Int × Offset) × List (Offset × Int)) :=
  lotmAux ir ([], []) line_offsets

/-- `first_line_for_uuid(offset_by_line, uuid)`: the smallest line whose
offset's block has the given UUID (the source sorts the matching lines and
takes the head). -/
def first_line_for_uuid (offset_by_line : List (Int × Offset)) (u : Nat) :
    Option Int :=
  match List.insertionSort (fun a b => a ≤ b)
      (offset_by_line.filterMap
        (fun p => if p.2.element_id.uuid = u then some p.1 else none)) with
  | [] => none
  | l :: _ => some l

/-- `block_lines(line_by_offset, block)`: the lines of the block's bytes.
The source filters with `filter(None, ...)`, so a line number 0 is
dropped along with misses. -/
def block_lines (line_by_offset : List (Offset × Int)) (b : ByteBlock) : List Int :=
  (List.range b.size).filterMap
    (fun i =>
      match alookup line_by_offset ⟨b, i⟩ with
      | some l => if l ≠ 0 then some l else none
      | none => none)

/-- `block_text(line_by_offset, block, asm_lines)`: the text of the
block's lines, each cut at the first `#` and right-stripped, joined with
newlines.  `none` models the `IndexError` on an out-of-range line. -/
def block_text (line_by_offset : List (Offset × Int)) (b : ByteBlock)
    (asmLines : List String) : Option String :=
  (optMapM (fun l => pyGet asmLines l) (block_lines line_by_offset b)).map
    (fun ts => String.intercalate "\n" (ts.map (fun s => rstrip (beforeHash s))))

/-! ## get_definition (server.py lines 1144-1201) -/

/-- Outcome of the definition request: an unhandled Python exception, a
`None` return after a user message, or a `Location` (uri elided; the range
is `line`/`start`/`end` as in the source). -/
inductive DefResult where
  | crash (msg : String)
  | noResult (msg : String)
  | location (line startChar endChar : Int)
deriving DecidableEq

/-- `get_definition` for an open, cached document.  Parameters stand for
the session state the handler reads: `docLines` is
`current_document.source.splitlines()`, `ir` is `current_gtirbs[uri]`,
`offset_by_line` is `current_indexes[uri][0]`, and `line`/`char` are the
request position.  After `line = preceding_function_line(...)` the source
immediately evaluates `current_lines[line]`; when the helper returned
`None` that raises `TypeError: list indices must be integers or slices,
not NoneType`, modelled by the `.crash` constructor. -/
def get_definition (docLines : List String) (ir : IRData)
    (offset_by_line : List (Int × Offset)) (line char : Int) : DefResult :=
  match pyGet docLines line with
  | none => .crash "IndexError"
  | some lineText =>
    let tok := isolate_token lineText char
    if tok = "" then .noResult "no token found"
    else
      match symbol_for_name ir tok with
      | none => .noResult "is not defined"
      | some sym =>
        match sym.referent with
        | .absent => .noResult "is not defined"
        | .proxy _ => .noResult "is not defined"
        | .block b =>
          match first_line_for_uuid offset_by_line b.uuid with
          | none => .noResult "no definition found"
          | some defLine =>
            match preceding_function_line docLines tok defLine with
            | .error e => .crash e
            | .ok none => .crash "TypeError: list indices must be integers, not NoneType"
            | .ok (some labelLine) =>
              match pyGet docLines labelLine with
              | none => .crash "IndexError"
              | some defText =>
                .location labelLine (pyFind defText tok)
                  (pyFind defText tok + tok.length)

/-! ## apply_changes_to_indexes (server.py lines 582-615) -/

/-- The inner `update_line` closure. -/
def update_line (s e newc oldc l : Int) : Option Int :=
  if l < s + min newc oldc then some l
  else if l > e then some (l + (newc - oldc))
  else none

/-- One iteration of the rebuild loop: `new_line = update_line(line)`,
`new_offset = offset_by_line.get(new_line)`, and the entries are stored
only `if new_line and new_offset` — so both a `None` and a *zero*
`new_line` are skipped (Python truthiness). -/
def acStep (m : List (Int × Offset)) (u : Int → Option Int)
    (acc : List (Int × Offset) × List (Offset × Int)) (l : Int) :
    List (Int × Offset) × List (Offset × Int) :=
  match u l with
  | none => acc
  | some nl =>
    match alookup m nl with
    | none => acc
    | some off => if nl = 0 then acc else (aupd acc.1 nl off, aupd acc.2 off nl)

/-- One `for start, end, text in changes` iteration.  `none` models the
`ValueError` that `min(lines)` raises when the current map is empty. -/
def applyOne (m : List (Int × Offset)) (c : Int × Int × String) :
    Option (List (Int × Offset) × List (Offset × Int)) :=
  let s := c.1
  let e := c.2.1
  let newc : Int := ((pySplitLines c.2.2).length : Int)
  let oldc : Int := (e + 1) - s
  match pyMin (m.map Prod.fst), pyMax (m.map Prod.fst) with
  | some lo, some hiK =>
    some ((intRange lo (hiK + (newc - oldc))).foldl
      (acStep m (update_line s e newc oldc)) ([], []))
  | _, _ => none

/-- The loop over `changes`; each iteration rebuilds both maps from the
current `offset_by_line` only (the incoming `line_by_offset` is never
read).  An empty `changes` list leaves `new_offset_by_line` unbound in the
source (`NameError` at the return), modelled as `none`. -/
def acLoop (m : List (Int × Offset)) :
    List (Int × Int × String) → Option (List (Int × Offset) × List (Offset × Int))
  | [] => none
  | [c] => applyOne m c
  | c :: rest =>
    match applyOne m c with
    | some mm => acLoop mm.1 rest
    | none => none

/-- `apply_changes_to_indexes(offset_by_line, line_by_offset, changes)`.
The second argument is returned only through the loop's reassignment and
is never read, which `acLoop` makes explicit. -/
def apply_changes_to_indexes (offset_by_line : List (Int × Offset))
    (_line_by_offset : List (Offset × Int)) (changes : List (Int × Int × String)) :
    Option (List (Int × Offset) × List (Offset × Int)) :=
  acLoop offset_by_line changes

/-! ## Index persistence (server.py lines 512-567) -/

/-- `uuid.UUID.hex`: the 32 lowercase hex digits of the 128-bit value. -/
def uuidHex (u : Nat) : String :=
  String.mk (toHexFixed 32 u)

/-- `json.dump(line_offsets, ..., cls=UUIDEncoder)`: each entry becomes
`[line, [uuid.hex, displacement]]`. -/
def dumpIndex (lo : List (Int × (Nat × Nat))) : List (Int × (String × Nat)) :=
  lo.map (fun p => (p.1, (uuidHex p.2.1, p.2.2)))

/-- Delete every occurrence of `pat` (Python `str.replace(pat, "")`). -/
def replaceSub (pat : List Char) : List Char → List Char
  | [] => []
  | c :: t =>
    if pat ≠ [] ∧ pat.isPrefixOf (c :: t) then replaceSub pat (List.drop pat.length (c :: t))
    else c :: replaceSub pat t
termination_by l => l.length
decreasing_by
  all_goals simp_wf
  all_goals simp_all [List.length_drop]
  all_goals cases pat <;> simp_all

/-- Python `str.strip("{}")`. -/
def stripBraces (cs : List Char) : List Char :=
  ((cs.dropWhile (fun c => c = '\x7b' ∨ c = '\x7d')).reverse.dropWhile
    (fun c => c = '\x7b' ∨ c = '\x7d')).reverse

/-- `uuid.UUID(hex=h)`: strip `urn:`/`uuid:`/braces/dashes, then require
exactly 32 hex digits and take their value.  (Python's `int(h, 16)` would
additionally tolerate an exotic `0x`-prefixed 32-character string; the
round-tripped values here are plain digit strings, where both agree.) -/
def parseUuidHex (s : String) : Option Nat :=
  let t1 := replaceSub "urn:".data s.data
  let t2 := replaceSub "uuid:".data t1
  let t3 := (stripBraces t2).filter (fun c => c ≠ '-')
  if t3.length = 32 ∧ t3.all (fun c => (hexCharVal c).isSome) then some (hexVal t3)
  else none

/-- The load path of `ensure_index`:
`(el[0], (uuid.UUID(hex=el[1][0]), el[1][1]))` for each entry; any failure
(`none`) makes `ensure_index` fall back to recomputation. -/
def loadIndex (j : List (Int × (String × Nat))) : Option (List (Int × (Nat × Nat))) :=
  optMapM (fun p => (parseUuidHex p.2.1).map (fun u => (p.1, (u, p.2.2)))) j

/-! ## Server session state and the stateful handlers -/

/-- Add an element to a Python set (modelled as a duplicate-free list). -/
def setAdd {α : Type} [DecidableEq α] (s : List α) (x : α) : List α :=
  if x ∈ s then s else s ++ [x]

/-- `del d[k]` on a Python dict (call sites below only delete present keys). -/
def aremove {α β : Type} [DecidableEq α] : List (α × β) → α → List (α × β)
  | [], _ => []
  | p :: rest, k => if p.1 = k then rest else p :: aremove rest k

/-- The module-level session state of server.py: the per-URI caches, plus
observable effects (file writes, remote pushes, user messages, log lines,
and unhandled exceptions escaping a handler). -/
structure ServerState where
  rewriteEnabled : Bool
  serverRemote : Bool
  workspaceDocs : List String
  currentGtirbs : List (String × IRData)
  currentIndexes : List (String × (List (Int × Offset) × List (Offset × Int)))
  modifiedBlocks : List (String × List ByteBlock)
  gtirbPathMap : List (String × String)
  birWrites : List String
  pushes : List String
  shown : List String
  logged : List String
  crashes : List String

/-- One LSP content change (`change.range.start.line`,
`change.range.end.line`, `change.text`). -/
structure ChangeEvent where
  startLine : Int
  endLine : Int
  text : String

/-- The `did_change` handler (server.py lines 956-1003).  When rewriting
is disabled it emits a warning and returns before touching any session
state.  Otherwise it registers the URI in `modified_blocks`, marks the
blocks under the edited lines dirty, and rebuilds the index maps through
`apply_changes_to_indexes` (whose mutation of `modified_blocks` survives
even if the rebuild raises, since the dict was updated in place first). -/
def did_change (st : ServerState) (uri : String) (changes : List ChangeEvent) :
    ServerState :=
  let st0 := { st with logged := st.logged ++ ["Document Did Change notification"] }
  if ¬ st.rewriteEnabled then
    { st0 with shown := st0.shown ++ ["Warning: GTIRB rewriting is disabled"] }
  else
    let st1 :=
      match alookup st0.modifiedBlocks uri with
      | none => { st0 with modifiedBlocks := aupd st0.modifiedBlocks uri [] }
      | some _ => st0
    match alookup st1.currentIndexes uri with
    | none => { st1 with shown := st1.shown ++ ["document " ++ uri ++ " not in indexes"] }
    | some idx =>
      let mb := (alookup st1.modifiedBlocks uri).getD []
      let mb2 := changes.foldl
        (fun acc c =>
          (intRange c.startLine c.endLine).foldl
            (fun a l =>
              match alookup idx.1 l with
              | some off => setAdd a off.element_id
              | none => a)
            acc)
        mb
      let st2 := { st1 with modifiedBlocks := aupd st1.modifiedBlocks uri mb2 }
      match apply_changes_to_indexes idx.1 idx.2
          (changes.map (fun c => (c.startLine, c.endLine + 1, c.text))) with
      | some idx2 =>
        { st2 with currentIndexes := aupd st2.currentIndexes uri idx2,
                   logged := st2.logged ++ ["Storing edit"] }
      | none => { st2 with crashes := st2.crashes ++ ["apply_changes_to_indexes raised"] }

/-- The `did_save` handler (server.py lines 1015-1104).  `docLines` is the
saved document's lines; `applyResult` is the outcome of the single
`ctx.apply()` assembler invocation (the only modelled source of the
`except` branch).  All of `ctx.apply()`, `ir.save_protobuf`, the remote
push and `del modified_blocks[uri]` sit in one `try`: an assembler error
surfaces as a message, keeps the dirty set and writes nothing. -/
def did_save (st : ServerState) (uri : String) (docLines : List String)
    (applyResult : Except String Unit) : ServerState :=
  let st0 := { st with logged := st.logged ++ ["Text Document Did Save notification"] }
  if st.rewriteEnabled then
    match alookup st0.modifiedBlocks uri with
    | none => { st0 with shown := st0.shown ++ ["no pending modifications to " ++ uri] }
    | some mb =>
      if mb.isEmpty then
        { st0 with shown := st0.shown ++ ["no pending modifications to " ++ uri] }
      else
        match alookup st0.currentGtirbs uri with
        | none => { st0 with shown := st0.shown ++ ["no GTIRB found for " ++ uri] }
        | some _ir =>
          match alookup st0.currentIndexes uri with
          | none => { st0 with crashes := st0.crashes ++ ["KeyError: current_indexes"] }
          | some idx =>
            match optMapM (fun b => block_text idx.2 b docLines) mb with
            | none => { st0 with crashes := st0.crashes ++ ["IndexError in block_text"] }
            | some asms =>
              let pairs := mb.zip asms
              let skips := (pairs.filter (fun p => p.2 = "")).map
                (fun _ => "skipping block with empty assembly")
              let st1 := { st0 with shown := st0.shown ++ skips }
              let blocks := pairs.filter (fun p => p.2 ≠ "")
              if blocks.isEmpty then
                { st1 with shown := st1.shown ++ ["No blocks to rewrite"],
                           modifiedBlocks := aremove st1.modifiedBlocks uri }
              else
                match applyResult with
                | .error e =>
                  { st1 with shown := st1.shown ++ ["assembly error: " ++ e] }
                | .ok _ =>
                  match alookup st1.gtirbPathMap uri with
                  | none =>
                    { st1 with shown := st1.shown ++ ["assembly error: KeyError"] }
                  | some path =>
                    let st2 := { st1 with birWrites := st1.birWrites ++ [path] }
                    let st3 :=
                      if st.serverRemote then { st2 with pushes := st2.pushes ++ [uri] }
                      else st2
                    { st3 with shown := st3.shown ++ ["GTIRB rewritten successfully"],
                               modifiedBlocks := aremove st3.modifiedBlocks uri }
  else { st0 with shown := st0.shown ++ ["GTIRB rewriting is disabled"] }

/-- The `gtirbGetAddressOfSymbol` command handler (server.py lines
798-819).  Returns the command's result (or the unhandled `TypeError`
that `hex(None)` raises for a block without an address) together with the
state after the handler's messages.  An unknown symbol, a missing
referent or a ProxyBlock referent produce only `logger.warning(...)` — a
log line, not a `show_message` to the user. -/
def get_address_of_symbol (st : ServerState) (uri name : String) :
    Except String (Option String) × ServerState :=
  let noMap :=
    (Except.ok Option.none,
      { st with shown := st.shown ++ [" No address mapping for " ++ uri] })
  match alookup st.currentGtirbs uri with
  | none => noMap
  | some ir =>
    if uri ∈ st.workspaceDocs then
      let warned :=
        { st with logged := st.logged ++ [" " ++ name ++ " does not have an address"] }
      match symbol_for_name ir name with
      | none => (.ok none, warned)
      | some sym =>
        match sym.referent with
        | .absent => (.ok none, warned)
        | .proxy _ => (.ok none, warned)
        | .block b =>
          match b.address with
          | some a => (.ok (some (pyHex a)), st)
          | none => (.error "TypeError: hex(None)", st)
    else noMap

/-! # Lemmas and theorems -/

theorem alookup_aupd {α β : Type} [DecidableEq α] (l : List (α × β)) (k k' : α) (v : β) :
    alookup (aupd l k v) k' = if k = k' then some v else alookup l k' := by
  induction l with
  | nil => by_cases h : k = k' <;> simp [aupd, alookup, h]
  | cons p rest ih =>
    by_cases hp : p.1 = k
    · simp only [aupd, if_pos hp]
      by_cases h : k = k'
      · simp [alookup, h]
      · simp [alookup, h, ← hp, hp ▸ h]
    · simp only [aupd, if_neg hp]
      by_cases h : p.1 = k'
      · have hkk : ¬ k = k' := fun hk => hp (by rw [hk]; exact h)
        simp [alookup, h, hkk]
      · simp [alookup, h, ih]

theorem mem_intRange {lo hi a : Int} : a ∈ intRange lo hi ↔ lo ≤ a ∧ a ≤ hi := by
  simp only [intRange, List.mem_map, List.mem_range]
  constructor
  · rintro ⟨n, hn, rfl⟩
    omega
  · rintro ⟨h1, h2⟩
    exact ⟨(a - lo).toNat, by omega, by omega⟩

/-! ## C3: the tolerant reverse lookup -/

theorem otlScan_none (lbo : List (Offset × Int)) (blk : ByteBlock) :
    ∀ tries i,
      (∀ j, j ≤ i → i < j + tries →
        ∀ l2, alookup lbo ⟨blk, j⟩ = some l2 → l2 = 0) →
      otlScan lbo blk tries i = none := by
  intro tries
  induction tries with
  | zero => intro i _; rfl
  | succ t ih =>
    intro i h
    have hi := h i (Nat.le_refl i) (by omega)
    simp only [otlScan]
    cases hlk : alookup lbo ⟨blk, i⟩ with
    | some l =>
      have hl0 : l = 0 := hi l hlk
      simp only [hl0, ne_eq, not_true_eq_false, if_false]
      by_cases hz : i = 0
      · simp [hz]
      · rw [if_neg hz]
        exact ih (i - 1) (fun j hj1 hj2 l2 => h j (by omega) (by omega) l2)
    | none =>
      by_cases hz : i = 0
      · simp [hz]
      · simp only [if_neg hz]
        exact ih (i - 1) (fun j hj1 hj2 l2 => h j (by omega) (by omega) l2)

theorem otlScan_hit (lbo : List (Offset × Int)) (blk : ByteBlock) (d' : Nat) (l : Int)
    (hhit : alookup lbo ⟨blk, d'⟩ = some l) (hl : l ≠ 0) :
    ∀ tries i, d' ≤ i → i < d' + tries →
      (∀ j, d' < j → j ≤ i → ∀ l2, alookup lbo ⟨blk, j⟩ = some l2 → l2 = 0) →
      otlScan lbo blk tries i = some l := by
  intro tries
  induction tries with
  | zero => intro i h1 h2 _; omega
  | succ t ih =>
    intro i h1 h2 habove
    by_cases hid : i = d'
    · subst hid
      simp [otlScan, hhit, hl]
    · have hlt : d' < i := by omega
      simp only [otlScan]
      cases hlk : alookup lbo ⟨blk, i⟩ with
      | some l2 =>
        have hl20 : l2 = 0 := habove i hlt (Nat.le_refl i) l2 hlk
        simp only [hl20, ne_eq, not_true_eq_false, if_false]
        rw [if_neg (by omega)]
        exact ih (i - 1) (by omega) (by omega)
          (fun j hj1 hj2 l3 => habove j hj1 (by omega) l3)
      | none =>
        rw [if_neg (by omega)]
        exact ih (i - 1) (by omega) (by omega)
          (fun j hj1 hj2 l3 => habove j hj1 (by omega) l3)

/-- Claim C3 (counterexample).  The claim's window is `[d-5, d]`: for the
offset `(blk, 5)` over a map holding displacement `0 ∈ [0, 5]` with line
7, the claim predicts `some 7`.  The code's loop
`range(d, max(-1, d - 5), -1)` never reaches displacement `d - 5`, so it
scans only `[1, 5]` and returns `None`. -/
theorem C3_counterexample :
    offset_to_line [(⟨⟨0, none, 9⟩, 0⟩, 7)] ⟨⟨0, none, 9⟩, 5⟩ = none ∧
    alookup ([(⟨⟨0, none, 9⟩, 0⟩, 7)] : List (Offset × Int))
      (⟨⟨0, none, 9⟩, 0⟩ : Offset) = some 7 := by
  constructor
  · rfl
  · rfl

/-- Claim C3 (amended): for an offset `(blk, d)`, `offset_to_line`
returns the line stored at the largest displacement `d'` of the window
`[d-4, d]` (clipped at 0) whose entry is present with a *nonzero* line,
and returns absent when every displacement of that window is absent or
maps to line 0.  (The claim said the window was `[d-5, d]` and did not
except entries whose stored line is 0.) -/
theorem C3_amended :
    (∀ (lbo : List (Offset × Int)) (blk : ByteBlock) (d d' : Nat) (l : Int),
      d' ≤ d → d ≤ d' + 4 →
      alookup lbo ⟨blk, d'⟩ = some l → l ≠ 0 →
      (∀ j, d' < j → j ≤ d → ∀ l2, alookup lbo ⟨blk, j⟩ = some l2 → l2 = 0) →
      offset_to_line lbo ⟨blk, d⟩ = some l) ∧
    (∀ (lbo : List (Offset × Int)) (blk : ByteBlock) (d : Nat),
      (∀ j, j ≤ d → d ≤ j + 4 → ∀ l2, alookup lbo ⟨blk, j⟩ = some l2 → l2 = 0) →
      offset_to_line lbo ⟨blk, d⟩ = none) := by
  constructor
  · intro lbo blk d d' l h1 h2 hhit hl habove
    exact otlScan_hit lbo blk d' l hhit hl DISPLACEMENT_INTERVAL d h1 (by
      show d < d' + 5
      omega) habove
  · intro lbo blk d h
    exact otlScan_none lbo blk DISPLACEMENT_INTERVAL d (fun j hj1 hj2 =>
      h j hj1 (by
        have h5 : d < j + 5 := hj2
        omega))

/-- Witness for `C3_amended` at a concrete input: displacement 2 with
line 9 is found from the offset `(blk, 4)`. -/
theorem C3_witness :
    offset_to_line [(⟨⟨1, none, 6⟩, 2⟩, 9)] ⟨⟨1, none, 6⟩, 4⟩ = some 9 :=
  C3_amended.1 [(⟨⟨1, none, 6⟩, 2⟩, 9)] ⟨1, none, 6⟩ 4 2 9 (by omega) (by omega)
    (by rfl) (by decide)
    (by
      intro j h1 h2 l2 hl2
      interval_cases j <;> simp [alookup] at hl2)

/-! ## C2: apply_changes_to_indexes -/

/-- What one rebuild pass stores: for every key `nl`, the rebuilt
`offset_by_line` holds the *input map's own entry at `nl`* whenever `nl`
is nonzero, reachable as `update_line(l0)` for some iterated `l0`, and
present in the input; entries are never re-keyed. -/
theorem acFold_lookup1 (m : List (Int × Offset)) (u : Int → Option Int)
    (L : List Int) (acc : List (Int × Offset) × List (Offset × Int)) (nl : Int) :
    alookup (L.foldl (acStep m u) acc).1 nl =
      if nl ≠ 0 ∧ (∃ l0 ∈ L, u l0 = some nl) ∧ (alookup m nl).isSome
      then alookup m nl else alookup acc.1 nl := by
  induction L generalizing acc with
  | nil => simp
  | cons c L ih =>
    rw [List.foldl_cons, ih]
    simp only [List.mem_cons, exists_eq_or_imp]
    rcases huc : u c with _ | nl2
    · have hstep : acStep m u acc c = acc := by simp [acStep, huc]
      rw [hstep]
      simp
    · rcases hlkm : alookup m nl2 with _ | off
      · have hstep : acStep m u acc c = acc := by simp [acStep, huc, hlkm]
        rw [hstep]
        by_cases heq : nl2 = nl
        · subst heq
          simp [hlkm]
        · simp [heq]
      · by_cases hz : nl2 = 0
        · subst hz
          have hstep : acStep m u acc c = acc := by simp [acStep, huc, hlkm]
          rw [hstep]
          by_cases heq : nl = 0
          · subst heq
            simp
          · simp [Ne.symm heq]
        · have hstep : acStep m u acc c =
              (aupd acc.1 nl2 off, aupd acc.2 off nl2) := by
            simp [acStep, huc, hlkm, hz]
          rw [hstep]
          by_cases heq : nl2 = nl
          · subst heq
            have haupd : alookup (aupd acc.1 nl2 off) nl2 = some off := by
              rw [alookup_aupd, if_pos rfl]
            have hL : (if nl2 ≠ 0 ∧ (∃ l0 ∈ L, u l0 = some nl2) ∧
                  (alookup m nl2).isSome
                then alookup m nl2
                else alookup (aupd acc.1 nl2 off, aupd acc.2 off nl2).1 nl2) =
                some off := by
              split
              · exact hlkm
              · exact haupd
            rw [hL, if_pos ⟨hz, Or.inl rfl, by simp [hlkm]⟩, hlkm]
          · have haupd : alookup (aupd acc.1 nl2 off) nl = alookup acc.1 nl := by
              rw [alookup_aupd, if_neg heq]
            simp [haupd, heq]

/-- Claim C2 (counterexample).  Input map `{1 ↦ A, 2 ↦ B, 3 ↦ C}`, one
change replacing span `[1, 2]` by the single line `"x"` (`k = 1` fewer
lines).  The claim predicts that the entry at line `3 > e` reappears at
line `2` with its original offset `C`; the code instead keeps the *old*
entry of each surviving line and cuts the iteration at `max - k`, so line
2 is simply absent from the result. -/
theorem C2_counterexample :
    (apply_changes_to_indexes
        [(1, (⟨⟨10, none, 1⟩, 0⟩ : Offset)), (2, ⟨⟨11, none, 1⟩, 0⟩),
          (3, ⟨⟨12, none, 1⟩, 0⟩)] [] [(1, 2, "x")]).map
        (fun res => alookup res.1 2) = some none ∧
    alookup [(1, (⟨⟨10, none, 1⟩, 0⟩ : Offset)), (2, ⟨⟨11, none, 1⟩, 0⟩),
        (3, ⟨⟨12, none, 1⟩, 0⟩)] 3 = some ⟨⟨12, none, 1⟩, 0⟩ := by
  constructor
  · rfl
  · rfl

/-- Claim C2 (amended): a shrinking replacement never re-keys entries.
For a single change replacing span `[s, e]` by `k` fewer lines, the
result is defined (the input map being nonempty), and it holds an entry
`(l, o)` exactly when the *input* map holds that same entry, `l ≠ 0`, and
either `l < s + new_count` (within the iterated range
`[min_key, max_key - k]`) or `l + k` lies in `(e, max_key - k]` and above
`min_key`.  In particular entries at lines `> e` are not shifted to
`l - k`, the value found at a surviving line is the input's value at that
very line, the entry at line 0 is always dropped, and the last `k`
iterations' worth of tail entries are lost. -/
theorem C2_amended (m : List (Int × Offset)) (mi : List (Offset × Int))
    (s e lo hiK k : Int) (text : String)
    (hmin : pyMin (m.map Prod.fst) = some lo)
    (hmax : pyMax (m.map Prod.fst) = some hiK)
    (hnewc : ((pySplitLines text).length : Int) = (e + 1 - s) - k)
    (hk : 0 < k) :
    (apply_changes_to_indexes m mi [(s, e, text)]).isSome ∧
    ∀ res, apply_changes_to_indexes m mi [(s, e, text)] = some res →
      ∀ l o, alookup res.1 l = some o ↔
        (alookup m l = some o ∧ l ≠ 0 ∧
          ((l < s + ((e + 1 - s) - k) ∧ lo ≤ l ∧ l ≤ hiK - k) ∨
           (e < l + k ∧ lo ≤ l + k ∧ l + k ≤ hiK - k))) := by
  have hres : apply_changes_to_indexes m mi [(s, e, text)] =
      some ((intRange lo
          (hiK + (((pySplitLines text).length : Int) - ((e + 1) - s)))).foldl
        (acStep m
          (update_line s e ((pySplitLines text).length : Int) ((e + 1) - s)))
        ([], [])) := by
    simp only [apply_changes_to_indexes, acLoop, applyOne, hmin, hmax]
  constructor
  · rw [hres]; rfl
  · intro res h
    rw [hres] at h
    injection h with h
    subst h
    intro l o
    rw [acFold_lookup1]
    have hED : (∃ l0 ∈ intRange lo
          (hiK + (((pySplitLines text).length : Int) - ((e + 1) - s))),
          update_line s e ((pySplitLines text).length : Int) ((e + 1) - s) l0 =
            some l) ↔
        ((l < s + ((e + 1 - s) - k) ∧ lo ≤ l ∧ l ≤ hiK - k) ∨
         (e < l + k ∧ lo ≤ l + k ∧ l + k ≤ hiK - k)) := by
      constructor
      · rintro ⟨l0, hmem, hu⟩
        rw [mem_intRange] at hmem
        unfold update_line at hu
        split_ifs at hu with ha hb
        · have h0 : l0 = l := Option.some.inj hu
          subst h0
          left
          omega
        · have h0 : l0 + (((pySplitLines text).length : Int) - ((e + 1) - s)) = l :=
            Option.some.inj hu
          right
          omega
      · rintro (⟨h1, h2, h3⟩ | ⟨h1, h2, h3⟩)
        · refine ⟨l, ?_, ?_⟩
          · rw [mem_intRange]; omega
          · unfold update_line
            rw [if_pos (by omega)]
        · refine ⟨l + k, ?_, ?_⟩
          · rw [mem_intRange]; omega
          · unfold update_line
            rw [if_neg (by omega), if_pos (by omega)]
            exact congrArg some (by omega)
    by_cases hC : l ≠ 0 ∧ (∃ l0 ∈ intRange lo
          (hiK + (((pySplitLines text).length : Int) - ((e + 1) - s))),
          update_line s e ((pySplitLines text).length : Int) ((e + 1) - s) l0 =
            some l) ∧ (alookup m l).isSome
    · rw [if_pos hC]
      constructor
      · intro h
        exact ⟨h, hC.1, hED.mp hC.2.1⟩
      · intro h
        exact h.1
    · rw [if_neg hC]
      constructor
      · intro h
        exact absurd h (by simp [alookup])
      · rintro ⟨h1, h2, h3⟩
        exact absurd ⟨h2, hED.mpr h3, by simp [h1]⟩ hC

/-- Witness for `C2_amended` on the concrete shrinking edit of
`C2_counterexample`: the surviving entry at line 1 keeps its offset. -/
theorem C2_witness :
    (apply_changes_to_indexes
        [(1, (⟨⟨10, none, 1⟩, 0⟩ : Offset)), (2, ⟨⟨11, none, 1⟩, 0⟩),
          (3, ⟨⟨12, none, 1⟩, 0⟩)] [] [(1, 2, "x")]).isSome ∧
    alookup [(1, (⟨⟨10, none, 1⟩, 0⟩ : Offset)), (2, ⟨⟨11, none, 1⟩, 0⟩),
        (3, ⟨⟨12, none, 1⟩, 0⟩)] 1 = some ⟨⟨10, none, 1⟩, 0⟩ ∧
    (alookup [(1, (⟨⟨10, none, 1⟩, 0⟩ : Offset)), (2, ⟨⟨11, none, 1⟩, 0⟩),
        (3, ⟨⟨12, none, 1⟩, 0⟩)] 1 ≠ some ⟨⟨11, none, 1⟩, 0⟩) ∧
    (apply_changes_to_indexes
        [(1, (⟨⟨10, none, 1⟩, 0⟩ : Offset)), (2, ⟨⟨11, none, 1⟩, 0⟩),
          (3, ⟨⟨12, none, 1⟩, 0⟩)] [] [(1, 2, "x")]).map
        (fun res => alookup res.1 1) = some (some ⟨⟨10, none, 1⟩, 0⟩) := by
  have h := C2_amended
    [(1, (⟨⟨10, none, 1⟩, 0⟩ : Offset)), (2, ⟨⟨11, none, 1⟩, 0⟩),
      (3, ⟨⟨12, none, 1⟩, 0⟩)] [] 1 2 1 3 1 "x" (by rfl) (by rfl) (by rfl)
    (by omega)
  refine ⟨h.1, rfl, by decide, ?_⟩
  rcases hh : apply_changes_to_indexes
      [(1, (⟨⟨10, none, 1⟩, 0⟩ : Offset)), (2, ⟨⟨11, none, 1⟩, 0⟩),
        (3, ⟨⟨12, none, 1⟩, 0⟩)] [] [(1, 2, "x")] with _ | res
  · rw [hh] at h
    exact absurd h.1 (by simp)
  · have h2 := (h.2 res hh 1 ⟨⟨10, none, 1⟩, 0⟩).mpr
      ⟨by rfl, by omega, Or.inl (by omega)⟩
    simp [hh, h2]

/-! ## C6: the two maps are mutually inverse -/

theorem get_by_uuid_uuid {ir : IRData} {u : Nat} {b : ByteBlock}
    (h : get_by_uuid ir u = some b) : b.uuid = u := by
  have := List.find?_some h
  simpa using this

/-- The rebuild fold preserves "the two maps are mutually inverse" and
"the line map is a sub-map of the input map", provided the input map is
injective (no two lines share an offset). -/
theorem acFold_MutInv (m : List (Int × Offset)) (u : Int → Option Int)
    (hinj : ∀ l1 l2 o, alookup m l1 = some o → alookup m l2 = some o → l1 = l2)
    (L : List Int) :
    ∀ acc : List (Int × Offset) × List (Offset × Int),
      (∀ l o, alookup acc.1 l = some o ↔ alookup acc.2 o = some l) →
      (∀ l o, alookup acc.1 l = some o → alookup m l = some o) →
      ((∀ l o, alookup (L.foldl (acStep m u) acc).1 l = some o ↔
          alookup (L.foldl (acStep m u) acc).2 o = some l) ∧
       (∀ l o, alookup (L.foldl (acStep m u) acc).1 l = some o →
          alookup m l = some o)) := by
  induction L with
  | nil => exact fun acc hMI hsub => ⟨hMI, hsub⟩
  | cons c L ih =>
    intro acc hMI hsub
    rw [List.foldl_cons]
    rcases huc : u c with _ | nl2
    · rw [show acStep m u acc c = acc from by simp [acStep, huc]]
      exact ih acc hMI hsub
    · rcases hlkm : alookup m nl2 with _ | off
      · rw [show acStep m u acc c = acc from by simp [acStep, huc, hlkm]]
        exact ih acc hMI hsub
      · by_cases hz : nl2 = 0
        · rw [show acStep m u acc c = acc from by subst hz; simp [acStep, huc, hlkm]]
          exact ih acc hMI hsub
        · have hstep : acStep m u acc c = (aupd acc.1 nl2 off, aupd acc.2 off nl2) := by
            simp [acStep, huc, hlkm, hz]
          rw [hstep]
          refine ih (aupd acc.1 nl2 off, aupd acc.2 off nl2) ?_ ?_
          · intro l o
            show alookup (aupd acc.1 nl2 off) l = some o ↔
              alookup (aupd acc.2 off nl2) o = some l
            rw [alookup_aupd, alookup_aupd]
            by_cases hl : nl2 = l
            · subst hl
              by_cases ho : off = o
              · subst ho
                simp
              · rw [if_pos rfl, if_neg ho]
                constructor
                · intro h
                  exact absurd (Option.some.inj h) ho
                · intro h
                  have h1 : alookup acc.1 nl2 = some o := (hMI nl2 o).mpr h
                  have h2 : alookup m nl2 = some o := hsub nl2 o h1
                  rw [hlkm] at h2
                  exact absurd (Option.some.inj h2) ho
            · by_cases ho : off = o
              · subst ho
                rw [if_neg hl, if_pos rfl]
                constructor
                · intro h
                  have h2 : alookup m l = some off := hsub l off h
                  exact absurd (hinj l nl2 off h2 hlkm) (fun he => hl he.symm)
                · intro h
                  exact absurd (Option.some.inj h) (fun he => hl he)
              · rw [if_neg hl, if_neg ho]
                exact hMI l o
          · intro l o
            show alookup (aupd acc.1 nl2 off) l = some o → alookup m l = some o
            rw [alookup_aupd]
            by_cases hl : nl2 = l
            · subst hl
              rw [if_pos rfl]
              intro h
              rw [← Option.some.inj h]
              exact hlkm
            · rw [if_neg hl]
              exact hsub l o

/-- A single `applyOne` pass yields mutually inverse maps when the input
line map is injective. -/
theorem applyOne_MutInv (m : List (Int × Offset)) (c : Int × Int × String)
    (hinj : ∀ l1 l2 o, alookup m l1 = some o → alookup m l2 = some o → l1 = l2) :
    ∀ res, applyOne m c = some res →
      ∀ l o, alookup res.1 l = some o ↔ alookup res.2 o = some l := by
  intro res h
  unfold applyOne at h
  rcases hmin : pyMin (m.map Prod.fst) with _ | lo <;> rw [hmin] at h
  · simp at h
  · rcases hmax : pyMax (m.map Prod.fst) with _ | hiK <;> rw [hmax] at h
    · simp at h
    · simp only [Option.some.injEq] at h
      subst h
      exact (acFold_MutInv m _ hinj _ ([], [])
        (fun l o => by simp [alookup]) (fun l o => by simp [alookup])).1

/-- `acLoop` (hence `apply_changes_to_indexes` for any change list)
preserves mutual inversion. -/
theorem acLoop_MutInv :
    ∀ (changes : List (Int × Int × String)) (m : List (Int × Offset)),
      (∀ l1 l2 o, alookup m l1 = some o → alookup m l2 = some o → l1 = l2) →
      ∀ res, acLoop m changes = some res →
        ∀ l o, alookup res.1 l = some o ↔ alookup res.2 o = some l := by
  intro changes
  induction changes with
  | nil => intro m _ res h; exact absurd h (by simp [acLoop])
  | cons c rest ih =>
    intro m hinj res h
    cases rest with
    | nil => exact applyOne_MutInv m c hinj res h
    | cons c2 rs =>
      rw [show acLoop m (c :: c2 :: rs) =
          (match applyOne m c with
           | some mm => acLoop mm.1 (c2 :: rs)
           | none => none) from rfl] at h
      rcases happ : applyOne m c with _ | mm <;> rw [happ] at h
      · exact absurd h (by simp)
      · have hMImm := applyOne_MutInv m c hinj mm happ
        have hinjmm : ∀ l1 l2 o, alookup mm.1 l1 = some o →
            alookup mm.1 l2 = some o → l1 = l2 := by
          intro l1 l2 o h1 h2
          have g1 := (hMImm l1 o).mp h1
          have g2 := (hMImm l2 o).mp h2
          rw [g1] at g2
          exact Option.some.inj g2
        exact ih mm.1 hinjmm res h

/-- Map construction from a duplicate-free pair list yields mutually
inverse maps: the inductive worker, carrying freshness of the not yet
inserted keys on both sides. -/
theorem lotmAux_MutInv (ir : IRData) :
    ∀ (lo : List (Int × (Nat × Nat))) (acc : List (Int × Offset) × List (Offset × Int)),
      (∀ l o, alookup acc.1 l = some o ↔ alookup acc.2 o = some l) →
      (∀ p ∈ lo, alookup acc.1 p.1 = none) →
      (∀ p ∈ lo, ∀ b, get_by_uuid ir p.2.1 = some b →
        alookup acc.2 ⟨b, p.2.2⟩ = none) →
      List.Pairwise (fun p q => p.1 ≠ q.1 ∧ p.2 ≠ q.2) lo →
      ∀ res, lotmAux ir acc lo = some res →
        ∀ l o, alookup res.1 l = some o ↔ alookup res.2 o = some l := by
  intro lo
  induction lo with
  | nil =>
    intro acc hMI _ _ _ res h
    rw [show lotmAux ir acc [] = some acc from rfl] at h
    rw [← Option.some.inj h]
    exact hMI
  | cons p rest ih =>
    intro acc hMI hfresh1 hfresh2 hpw res h
    rcases p with ⟨line, u0, d0⟩
    rw [show lotmAux ir acc ((line, u0, d0) :: rest) =
        (match get_by_uuid ir u0 with
         | none => none
         | some b => lotmAux ir (aupd acc.1 line ⟨b, d0⟩, aupd acc.2 ⟨b, d0⟩ line) rest)
        from rfl] at h
    rcases hb : get_by_uuid ir u0 with _ | b <;> rw [hb] at h
    · exact absurd h (by simp)
    · have hf1 : alookup acc.1 line = none := hfresh1 _ (List.mem_cons_self _ _)
      have hf2 : alookup acc.2 ⟨b, d0⟩ = none :=
        hfresh2 _ (List.mem_cons_self _ _) b hb
      rcases List.pairwise_cons.mp hpw with ⟨hheadrest, hpwrest⟩
      refine ih (aupd acc.1 line ⟨b, d0⟩, aupd acc.2 ⟨b, d0⟩ line) ?_ ?_ ?_ hpwrest res h
      · intro l o
        show alookup (aupd acc.1 line ⟨b, d0⟩) l = some o ↔
          alookup (aupd acc.2 ⟨b, d0⟩ line) o = some l
        rw [alookup_aupd, alookup_aupd]
        by_cases hl : line = l
        · subst hl
          by_cases ho : (⟨b, d0⟩ : Offset) = o
          · subst ho
            simp
          · rw [if_pos rfl, if_neg ho]
            constructor
            · intro hcontra
              exact absurd (Option.some.inj hcontra) ho
            · intro hcontra
              have h1 : alookup acc.1 line = some o := (hMI line o).mpr hcontra
              rw [hf1] at h1
              exact absurd h1 (by simp)
        · by_cases ho : (⟨b, d0⟩ : Offset) = o
          · subst ho
            rw [if_neg hl, if_pos rfl]
            constructor
            · intro hcontra
              have h1 : alookup acc.2 ⟨b, d0⟩ = some l := (hMI l _).mp hcontra
              rw [hf2] at h1
              exact absurd h1 (by simp)
            · intro hcontra
              exact absurd (Option.some.inj hcontra) (fun he => hl he)
          · rw [if_neg hl, if_neg ho]
            exact hMI l o
      · intro q hq
        have hne : line ≠ q.1 := (hheadrest q hq).1
        rw [alookup_aupd, if_neg hne]
        exact hfresh1 q (List.mem_cons_of_mem _ hq)
      · intro q hq b2 hb2
        have hne : (u0, d0) ≠ q.2 := (hheadrest q hq).2
        have hneo : (⟨b, d0⟩ : Offset) ≠ ⟨b2, q.2.2⟩ := by
          intro he
          injection he with he1 he2
          have hu1 : b.uuid = u0 := get_by_uuid_uuid hb
          have hu2 : b2.uuid = q.2.1 := get_by_uuid_uuid hb2
          apply hne
          have : u0 = q.2.1 := by rw [← hu1, ← hu2, he1]
          have hd : d0 = q.2.2 := he2
          rw [this, hd]
        rw [alookup_aupd, if_neg hneo]
        exact hfresh2 q (List.mem_cons_of_mem _ hq) b2 hb2

/-- Claim C6 (counterexample).  Build the maps from the list
`[(1, (5, 0)), (2, (5, 0))]`, whose two entries share one offset: the
forward map holds `1 ↦ (block 5, 0)` while the inverse map sends that
offset to line 2, so `offset_by_line[l] = o` does not imply
`line_by_offset[o] = l` and the maps are not mutually inverse. -/
theorem C6_counterexample :
    line_offsets_to_maps ⟨[⟨5, none, 1⟩], []⟩ [(1, (5, 0)), (2, (5, 0))] =
      some ([(1, ⟨⟨5, none, 1⟩, 0⟩), (2, ⟨⟨5, none, 1⟩, 0⟩)],
        [(⟨⟨5, none, 1⟩, 0⟩, 2)]) ∧
    alookup [(1, (⟨⟨5, none, 1⟩, 0⟩ : Offset)), (2, ⟨⟨5, none, 1⟩, 0⟩)] 1 =
      some ⟨⟨5, none, 1⟩, 0⟩ ∧
    alookup [((⟨⟨5, none, 1⟩, 0⟩ : Offset), (2 : Int))] ⟨⟨5, none, 1⟩, 0⟩ ≠
      some 1 := by
  refine ⟨rfl, rfl, ?_⟩
  decide

/-- Claim C6 (amended): the two index maps hold identical information
*for duplicate-free inputs*: the maps built from a line-offset list in
which no two entries share a line or share an offset are mutually inverse
(`offset_by_line[l] = o ↔ line_by_offset[o] = l`), and every
`apply_changes_to_indexes` step maps mutually inverse maps to mutually
inverse maps.  (Unrestricted, the claim fails: a list with a duplicated
line or offset builds maps that disagree, see the counterexample.) -/
theorem C6_amended :
    (∀ (ir : IRData) (lo : List (Int × (Nat × Nat)))
        (res : List (Int × Offset) × List (Offset × Int)),
      List.Pairwise (fun p q => p.1 ≠ q.1 ∧ p.2 ≠ q.2) lo →
      line_offsets_to_maps ir lo = some res →
      ∀ l o, alookup res.1 l = some o ↔ alookup res.2 o = some l) ∧
    (∀ (m : List (Int × Offset)) (mi : List (Offset × Int))
        (changes : List (Int × Int × String))
        (res : List (Int × Offset) × List (Offset × Int)),
      (∀ l o, alookup m l = some o ↔ alookup mi o = some l) →
      apply_changes_to_indexes m mi changes = some res →
      ∀ l o, alookup res.1 l = some o ↔ alookup res.2 o = some l) := by
  constructor
  · intro ir lo res hpw h
    exact lotmAux_MutInv ir lo ([], []) (fun l o => by simp [alookup])
      (fun p _ => rfl) (fun p _ b _ => rfl) hpw res h
  · intro m mi changes res hMI h
    have hinj : ∀ l1 l2 o, alookup m l1 = some o → alookup m l2 = some o →
        l1 = l2 := by
      intro l1 l2 o h1 h2
      have g1 := (hMI l1 o).mp h1
      have g2 := (hMI l2 o).mp h2
      rw [g1] at g2
      exact Option.some.inj g2
    exact acLoop_MutInv changes m hinj res h

/-- Witness for `C6_amended` on a duplicate-free two-entry list. -/
theorem C6_witness :
    (alookup [(1, (⟨⟨5, none, 2⟩, 0⟩ : Offset)), (2, ⟨⟨5, none, 2⟩, 1⟩)] 1 =
        some ⟨⟨5, none, 2⟩, 0⟩ ↔
      alookup [((⟨⟨5, none, 2⟩, 0⟩ : Offset), (1 : Int)), (⟨⟨5, none, 2⟩, 1⟩, 2)]
        ⟨⟨5, none, 2⟩, 0⟩ = some 1) :=
  C6_amended.1 ⟨[⟨5, none, 2⟩], []⟩ [(1, (5, 0)), (2, (5, 1))]
    ([(1, ⟨⟨5, none, 2⟩, 0⟩), (2, ⟨⟨5, none, 2⟩, 1⟩)],
      [(⟨⟨5, none, 2⟩, 0⟩, 1), (⟨⟨5, none, 2⟩, 1⟩, 2)])
    (by decide) rfl 1 ⟨⟨5, none, 2⟩, 0⟩

/-! ## C7: index persistence round trip -/

theorem hexCharVal_hexDigitChar : ∀ m : Nat, m < 16 →
    hexCharVal (hexDigitChar m) = some m := by decide

theorem hexDigitChar_props : ∀ m : Nat, m < 16 →
    hexDigitChar m ≠ ':' ∧ hexDigitChar m ≠ '-' ∧
    hexDigitChar m ≠ '\x7b' ∧ hexDigitChar m ≠ '\x7d' := by decide

theorem toHexFixed_length (w n : Nat) : (toHexFixed w n).length = w := by
  induction w generalizing n with
  | zero => rfl
  | succ w ih => simp [toHexFixed, ih]

theorem toHexFixed_mem {w n : Nat} {c : Char} (h : c ∈ toHexFixed w n) :
    ∃ m, m < 16 ∧ c = hexDigitChar m := by
  induction w generalizing n with
  | zero => simp [toHexFixed] at h
  | succ w ih =>
    simp only [toHexFixed, List.mem_append, List.mem_singleton] at h
    rcases h with h | h
    · exact ih h
    · exact ⟨n % 16, Nat.mod_lt n (by omega), h⟩

theorem hexVal_append (xs : List Char) (c : Char) :
    hexVal (xs ++ [c]) = 16 * hexVal xs + (hexCharVal c).getD 0 := by
  simp [hexVal, List.foldl_append]

theorem hexVal_toHexFixed {w n : Nat} (h : n < 16 ^ w) :
    hexVal (toHexFixed w n) = n := by
  induction w generalizing n with
  | zero =>
    simp [toHexFixed, hexVal]
    omega
  | succ w ih =>
    rw [toHexFixed, hexVal_append]
    have hdiv : n / 16 < 16 ^ w := by
      rw [pow_succ] at h
      omega
    rw [ih hdiv, hexCharVal_hexDigitChar (n % 16) (Nat.mod_lt n (by omega))]
    simp
    omega

theorem replaceSub_noop {pat l : List Char} {c0 : Char}
    (hc0 : c0 ∈ pat) (hnl : c0 ∉ l) : replaceSub pat l = l := by
  induction l with
  | nil => simp [replaceSub]
  | cons c t ih =>
    have hpre : ¬ (pat ≠ [] ∧ pat.isPrefixOf (c :: t)) := by
      rintro ⟨_, hp⟩
      rw [List.isPrefixOf_iff_prefix] at hp
      exact hnl (hp.subset hc0)
    rw [replaceSub, if_neg hpre]
    have ht : c0 ∉ t := fun hm => hnl (List.mem_cons_of_mem _ hm)
    rw [ih ht]

theorem dropWhile_noop {p : Char → Bool} {l : List Char}
    (h : ∀ c ∈ l, ¬ p c) : l.dropWhile p = l := by
  cases l with
  | nil => rfl
  | cons c t =>
    rw [List.dropWhile_cons,
      if_neg (by simpa using h c (List.mem_cons_self _ _))]

theorem stripBraces_noop {l : List Char}
    (h : ∀ c ∈ l, c ≠ '\x7b' ∧ c ≠ '\x7d') : stripBraces l = l := by
  unfold stripBraces
  have h1 : l.dropWhile (fun c => decide (c = '\x7b' ∨ c = '\x7d')) = l :=
    dropWhile_noop (fun c hc => by simpa using h c hc)
  rw [h1]
  have h2 : l.reverse.dropWhile (fun c => decide (c = '\x7b' ∨ c = '\x7d')) =
      l.reverse :=
    dropWhile_noop (fun c hc => by
      rw [List.mem_reverse] at hc
      simpa using h c hc)
  rw [h2, List.reverse_reverse]

/-- `uuid.UUID(hex=u.hex)` recovers the 128-bit value. -/
theorem parseUuidHex_uuidHex {u : Nat} (h : u < 2 ^ 128) :
    parseUuidHex (uuidHex u) = some u := by
  have h16 : u < 16 ^ 32 := by
    have : (16 : Nat) ^ 32 = 2 ^ 128 := by norm_num
    omega
  have hchars : ∀ c ∈ toHexFixed 32 u, ∃ m, m < 16 ∧ c = hexDigitChar m :=
    fun c hc => toHexFixed_mem hc
  have hnocolon : ':' ∉ toHexFixed 32 u := by
    intro hc
    rcases hchars _ hc with ⟨m, hm, he⟩
    exact (hexDigitChar_props m hm).1 he.symm
  simp only [parseUuidHex, uuidHex]
  rw [replaceSub_noop (by decide : ':' ∈ "urn:".data) hnocolon]
  rw [replaceSub_noop (by decide : ':' ∈ "uuid:".data) hnocolon]
  rw [stripBraces_noop (fun c hc => by
    rcases hchars _ hc with ⟨m, hm, he⟩
    exact ⟨he ▸ (hexDigitChar_props m hm).2.2.1, he ▸ (hexDigitChar_props m hm).2.2.2⟩)]
  rw [List.filter_eq_self.mpr (fun c hc => by
    rcases hchars _ hc with ⟨m, hm, he⟩
    simpa using he ▸ (hexDigitChar_props m hm).2.1)]
  rw [if_pos ⟨toHexFixed_length 32 u, List.all_eq_true.mpr (fun c hc => by
    rcases hchars _ (by simpa using hc) with ⟨m, hm, he⟩
    simp [he, hexCharVal_hexDigitChar m hm])⟩]
  rw [hexVal_toHexFixed h16]

/-- Claim C7: serializing a line-offset index to its JSON form (lines
paired with hex-encoded block UUID and displacement) and reloading yields
the identical list, hence `line_offsets_to_maps` builds identical maps
from the reloaded and the original index. -/
theorem C7_roundtrip (lo : List (Int × (Nat × Nat)))
    (h128 : ∀ p ∈ lo, p.2.1 < 2 ^ 128) :
    loadIndex (dumpIndex lo) = some lo ∧
    ∀ ir : IRData, line_offsets_to_maps ir ((loadIndex (dumpIndex lo)).getD []) =
      line_offsets_to_maps ir lo := by
  have hload : loadIndex (dumpIndex lo) = some lo := by
    induction lo with
    | nil => rfl
    | cons p rest ih =>
      rcases p with ⟨l0, u0, d0⟩
      have hp : u0 < 2 ^ 128 := h128 _ (List.mem_cons_self _ _)
      have hrest := ih (fun q hq => h128 q (List.mem_cons_of_mem _ hq))
      simp only [dumpIndex, List.map_cons, loadIndex, optMapM] at hrest ⊢
      rw [parseUuidHex_uuidHex hp]
      simp only [Option.map_some']
      rw [hrest]
  exact ⟨hload, fun ir => by rw [hload, Option.getD_some]⟩

/-- Witness for `C7_roundtrip` on a one-entry index. -/
theorem C7_witness :
    loadIndex (dumpIndex [((3 : Int), ((5 : Nat), (1 : Nat)))]) =
      some [(3, (5, 1))] :=
  (C7_roundtrip [(3, (5, 1))] (by decide)).1

/-! ## C8: isolate_token -/

/-- Structure of the tokenizer's runs: every run starts at or after the
scan position, is nonempty, and consecutive runs are separated by at
least one character. -/
theorem runsTW_invariant :
    ∀ (l : List Char) (i : Nat),
      (∀ p ∈ runsTW i l, i ≤ p.1 ∧ p.2 ≠ []) ∧
      List.Pairwise (fun (p q : Nat × List Char) => p.1 + p.2.length < q.1)
        (runsTW i l) := by
  intro l
  induction l with
  | nil => intro i; exact ⟨by simp [runsTW], by simp [runsTW]⟩
  | cons c cs ih =>
    intro i
    rcases ih (i + 1) with ⟨hstarts, hpw⟩
    by_cases hsp : pyIsSpace c
    · rw [show runsTW i (c :: cs) = runsTW (i + 1) cs from by simp [runsTW, hsp]]
      exact ⟨fun p hp => ⟨by have := (hstarts p hp).1; omega, (hstarts p hp).2⟩, hpw⟩
    · rcases hrest : runsTW (i + 1) cs with _ | ⟨⟨j, t⟩, rs⟩
      · rw [show runsTW i (c :: cs) = [(i, [c])] from by simp [runsTW, hsp, hrest]]
        constructor
        · intro p hp
          rw [List.mem_singleton] at hp
          subst hp
          exact ⟨Nat.le_refl i, by simp⟩
        · simp
      · rw [hrest] at hstarts hpw
        by_cases hj : j = i + 1
        · rw [show runsTW i (c :: cs) = (i, c :: t) :: rs from by
            simp [runsTW, hsp, hrest, hj]]
          rcases List.pairwise_cons.mp hpw with ⟨hhead, hrs⟩
          constructor
          · intro p hp
            rcases List.mem_cons.mp hp with hp | hp
            · subst hp
              exact ⟨Nat.le_refl i, by simp⟩
            · have := hstarts p (List.mem_cons_of_mem _ hp)
              exact ⟨by omega, this.2⟩
          · rw [List.pairwise_cons]
            refine ⟨fun q hq => ?_, hrs⟩
            have h1 := hhead q hq
            simp only at h1
            simp only [List.length_cons]
            omega
        · rw [show runsTW i (c :: cs) = (i, [c]) :: (j, t) :: rs from by
            simp [runsTW, hsp, hrest, hj]]
          constructor
          · intro p hp
            rcases List.mem_cons.mp hp with hp | hp
            · subst hp
              exact ⟨Nat.le_refl i, by simp⟩
            · have := hstarts p hp
              exact ⟨by omega, this.2⟩
          · rw [List.pairwise_cons]
            constructor
            · intro q hq
              have hq1 := (hstarts q hq).1
              rcases List.mem_cons.mp hq with hqe | hq2
              · subst hqe
                simp only [List.length_singleton]
                omega
              · rcases List.pairwise_cons.mp hpw with ⟨hhead, _⟩
                have h1 := hhead q hq2
                have hjge : i + 1 ≤ j := (hstarts (j, t) (List.mem_cons_self _ _)).1
                have htne : t ≠ [] := (hstarts (j, t) (List.mem_cons_self _ _)).2
                have : 1 ≤ t.length := by
                  cases t with
                  | nil => exact absurd rfl htne
                  | cons a b => simp
                simp only [List.length_singleton]
                omega
            · exact hpw

/-- Every character of a run is non-whitespace and comes from the scanned
list. -/
theorem runsTW_chars :
    ∀ (l : List Char) (i s : Nat) (t : List Char),
      (s, t) ∈ runsTW i l → ∀ c ∈ t, ¬ pyIsSpace c ∧ c ∈ l := by
  intro l
  induction l with
  | nil => intro i s t h; simp [runsTW] at h
  | cons c0 cs ih =>
    intro i s t hmem c hc
    by_cases hsp : pyIsSpace c0
    · rw [show runsTW i (c0 :: cs) = runsTW (i + 1) cs from by
        simp [runsTW, hsp]] at hmem
      have := ih (i + 1) s t hmem c hc
      exact ⟨this.1, List.mem_cons_of_mem _ this.2⟩
    · rcases hrest : runsTW (i + 1) cs with _ | ⟨⟨j, t1⟩, rs⟩
      · rw [show runsTW i (c0 :: cs) = [(i, [c0])] from by
          simp [runsTW, hsp, hrest]] at hmem
        rw [List.mem_singleton, Prod.mk.injEq] at hmem
        rw [hmem.2] at hc
        rw [List.mem_singleton] at hc
        subst hc
        exact ⟨hsp, List.mem_cons_self _ _⟩
      · by_cases hj : j = i + 1
        · rw [show runsTW i (c0 :: cs) = (i, c0 :: t1) :: rs from by
            simp [runsTW, hsp, hrest, hj]] at hmem
          rcases List.mem_cons.mp hmem with hmem | hmem
          · rw [Prod.mk.injEq] at hmem
            rw [hmem.2] at hc
            rcases List.mem_cons.mp hc with hce | hct
            · subst hce
              exact ⟨hsp, List.mem_cons_self _ _⟩
            · have := ih (i + 1) j t1 (hrest ▸ List.mem_cons_self _ _) c hct
              exact ⟨this.1, List.mem_cons_of_mem _ this.2⟩
          · have := ih (i + 1) s t
              (hrest ▸ List.mem_cons_of_mem _ hmem) c hc
            exact ⟨this.1, List.mem_cons_of_mem _ this.2⟩
        · rw [show runsTW i (c0 :: cs) = (i, [c0]) :: (j, t1) :: rs from by
            simp [runsTW, hsp, hrest, hj]] at hmem
          rcases List.mem_cons.mp hmem with hmem | hmem
          · rw [Prod.mk.injEq] at hmem
            rw [hmem.2] at hc
            rw [List.mem_singleton] at hc
            subst hc
            exact ⟨hsp, List.mem_cons_self _ _⟩
          · have := ih (i + 1) s t (hrest ▸ hmem) c hc
            exact ⟨this.1, List.mem_cons_of_mem _ this.2⟩

/-- At most one run satisfies the coverage test
`m.start() <= pos <= m.start() + len(m.group())`, so `find?` returns any
covering run of the list. -/
theorem find_cover (pos : Int) :
    ∀ (rs : List (Nat × List Char)),
      List.Pairwise (fun (p q : Nat × List Char) => p.1 + p.2.length < q.1) rs →
      ∀ s t, (s, t) ∈ rs → (s : Int) ≤ pos → pos ≤ (s : Int) + t.length →
      rs.find? (fun st => decide ((st.1 : Int) ≤ pos ∧
        pos ≤ (st.1 : Int) + st.2.length)) = some (s, t) := by
  intro rs
  induction rs with
  | nil => intro _ s t h; simp at h
  | cons p rest ih =>
    intro hpw s t hmem h1 h2
    rcases List.pairwise_cons.mp hpw with ⟨hhead, hrest⟩
    rcases List.mem_cons.mp hmem with hmem | hmem
    · subst hmem
      rw [List.find?_cons_of_pos]
      simp only [decide_eq_true_eq]
      exact ⟨h1, h2⟩
    · have hgap := hhead (s, t) hmem
      simp only at hgap
      rw [List.find?_cons_of_neg, ih hrest s t hmem h1 h2]
      simp only [decide_eq_true_eq, not_and, not_le]
      intro _
      have : ((p.1 : Int) + p.2.length) < s := by exact_mod_cast hgap
      omega

/-- The delimiter substitution leaves no delimiter character behind. -/
theorem replace_delims_no_delim (line : String) (c : Char)
    (h : c ∈ (replace_delims line).data) : c ∉ delims := by
  simp only [replace_delims, List.mem_map] at h
  rcases h with ⟨c0, _, heq⟩
  by_cases hd : c0 ∈ delims
  · rw [if_pos hd] at heq
    rw [← heq]
    decide
  · rw [if_neg hd] at heq
    rw [← heq]
    exact hd

/-- `isolate_token` returns the covering run when there is one. -/
theorem isolate_token_of_mem (line : String) (pos : Int) (s : Nat) (t : List Char)
    (hpos0 : 0 ≤ pos) (hposlen : pos < (line.length : Int))
    (hmem : (s, t) ∈ runsTW 0 (replace_delims line).data)
    (h1 : (s : Int) ≤ pos) (h2 : pos ≤ (s : Int) + t.length) :
    isolate_token line pos = String.mk t := by
  unfold isolate_token
  rw [if_neg (by omega)]
  rw [find_cover pos (runsTW 0 (replace_delims line).data)
    (runsTW_invariant (replace_delims line).data 0).2 s t hmem h1 h2]

/-- A run whose start equals the scan base must be the head of the run
list (all other runs start strictly later). -/
theorem runsTW_start_head {cs : List Char} {i0 : Nat} {t1 : List Char}
    (h : (i0, t1) ∈ runsTW i0 cs) :
    ∃ rs, runsTW i0 cs = (i0, t1) :: rs := by
  rcases hr : runsTW i0 cs with _ | ⟨⟨j, t0⟩, rs⟩
  · rw [hr] at h
    simp at h
  · rw [hr] at h
    rcases List.mem_cons.mp h with h | h
    · rw [Prod.mk.injEq] at h
      exact ⟨rs, by rw [h.1, h.2]⟩
    · rcases runsTW_invariant cs i0 with ⟨hstarts, hpw⟩
      rw [hr] at hstarts hpw
      rcases List.pairwise_cons.mp hpw with ⟨hhead, _⟩
      have hgap := hhead (i0, t1) h
      simp only at hgap
      have hj := (hstarts (j, t0) (List.mem_cons_self _ _)).1
      have ht0 := (hstarts (j, t0) (List.mem_cons_self _ _)).2
      have : 1 ≤ t0.length := by
        cases t0 with
        | nil => exact absurd rfl ht0
        | cons a b => simp
      omega

/-- A maximal non-whitespace run of the scanned list is one of the
tokenizer's runs: `t` is nonempty, all non-whitespace, sits at position
`s` (list position `s - i` relative to scan base `i`), the character
after it (if any) is whitespace, and the character before it (if any) is
whitespace. -/
theorem maxRun_mem_runsTW :
    ∀ (l : List Char) (i s : Nat) (t r : List Char),
      i ≤ s → t ≠ [] → (∀ c ∈ t, ¬ pyIsSpace c) →
      l.drop (s - i) = t ++ r →
      (r = [] ∨ ∃ c1 r2, r = c1 :: r2 ∧ pyIsSpace c1) →
      (s = i ∨ ∃ c0, l.get? (s - i - 1) = some c0 ∧ pyIsSpace c0) →
      (s, t) ∈ runsTW i l := by
  intro l
  induction l with
  | nil =>
    intro i s t r _ ht _ h4 _ _
    rw [List.drop_nil] at h4
    exact absurd (List.append_eq_nil.mp h4.symm).1 ht
  | cons c cs ih =>
    intro i s t r h1 ht hchars h4 hafter hbefore
    by_cases hs : s = i
    · subst hs
      rw [Nat.sub_self, List.drop_zero] at h4
      rcases t with _ | ⟨t0, ts⟩
      · exact absurd rfl ht
      · rw [List.cons_append] at h4
        injection h4 with hc hcs
        subst hc
        have hcns : ¬ pyIsSpace c = true := hchars c (List.mem_cons_self _ _)
        have hcf : pyIsSpace c = false := by simpa using hcns
        rcases ts with _ | ⟨t2, ts'⟩
        · -- the run is the single head character
          rw [List.nil_append] at hcs
          subst hcs
          rcases hafter with hafter | ⟨c1, r2, hr, hc1⟩
          · subst hafter
            simp [runsTW, hcf]
          · subst hr
            rcases hr2 : runsTW (s + 2) r2 with _ | ⟨⟨j, t1⟩, rs⟩
            · simp [runsTW, hcf, hc1, hr2]
            · have hj : (s + 2) ≤ j :=
                ((runsTW_invariant r2 (s + 2)).1 (j, t1)
                  (hr2 ▸ List.mem_cons_self _ _)).1
              have hj1 : ¬ j = s + 1 := by omega
              rw [show runsTW s (c :: c1 :: r2) =
                  (s, [c]) :: (j, t1) :: rs from by
                simp [runsTW, hcf, hc1, hr2, hj1]]
              exact List.mem_cons_self _ _
        · -- the run continues into cs
          have hmem : (s + 1, t2 :: ts') ∈ runsTW (s + 1) cs := by
            refine ih (s + 1) (s + 1) (t2 :: ts') r (Nat.le_refl _) (by simp)
              (fun c2 hc2 => hchars c2 (List.mem_cons_of_mem _ hc2)) ?_ hafter
              (Or.inl rfl)
            rw [Nat.sub_self, List.drop_zero]
            exact hcs
          rcases runsTW_start_head hmem with ⟨rs, hrw⟩
          rw [show runsTW s (c :: cs) = (s, c :: t2 :: ts') :: rs from by
            simp [runsTW, hcf, hrw]]
          exact List.mem_cons_self _ _
    · have hsgt : i < s := by omega
      have hk : s - i = (s - (i + 1)) + 1 := by omega
      rw [hk, List.drop_succ_cons] at h4
      have hbefore2 : s = i + 1 ∨
          ∃ c0, cs.get? (s - (i + 1) - 1) = some c0 ∧ pyIsSpace c0 := by
        by_cases hs1 : s = i + 1
        · exact Or.inl hs1
        · rcases hbefore with hbefore | ⟨c0, hg, hc0⟩
          · exact absurd hbefore hs
          · right
            refine ⟨c0, ?_, hc0⟩
            rw [show s - i - 1 = (s - (i + 1) - 1) + 1 from by omega,
              List.get?_cons_succ] at hg
            exact hg
      by_cases hsp : pyIsSpace c
      · rw [show runsTW i (c :: cs) = runsTW (i + 1) cs from by
          simp [runsTW, hsp]]
        exact ih (i + 1) s t r (by omega) ht hchars h4 hafter hbefore2
      · -- the head is non-whitespace, so the run cannot start at i + 1
        have hs2 : ¬ s = i + 1 := by
          intro hs1
          rcases hbefore with hbefore | ⟨c0, hg, hc0⟩
          · exact hs hbefore
          · rw [show s - i - 1 = 0 from by omega, List.get?_cons_zero] at hg
            have hcc : c = c0 := Option.some.inj hg
            rw [← hcc] at hc0
            exact hsp hc0
        have hmem : (s, t) ∈ runsTW (i + 1) cs :=
          ih (i + 1) s t r (by omega) ht hchars h4 hafter hbefore2
        rcases hr : runsTW (i + 1) cs with _ | ⟨⟨j, t1⟩, rs⟩
        · rw [hr] at hmem
          simp at hmem
        · rw [hr] at hmem
          by_cases hj : j = i + 1
          · rw [show runsTW i (c :: cs) = (i, c :: t1) :: rs from by
              simp [runsTW, hsp, hr, hj]]
            rcases List.mem_cons.mp hmem with hmem | hmem
            · rw [Prod.mk.injEq] at hmem
              exact absurd (hmem.1.trans hj) hs2
            · exact List.mem_cons_of_mem _ hmem
          · rw [show runsTW i (c :: cs) = (i, [c]) :: (j, t1) :: rs from by
              simp [runsTW, hsp, hr, hj]]
            exact List.mem_cons_of_mem _ hmem

/-- Claim C8: `isolate_token` (tokenize_at) returns the maximal run of
non-whitespace characters of the delimiter-substituted line that covers
the position — inclusive at both ends, i.e. at every `pos` with
`start <= pos <= start + length` — and returns the empty string whenever
the position is negative or at/past the end of the line; the returned
token never contains a whitespace or delimiter character.  A maximal run
is spelled out structurally: nonempty, all non-whitespace, preceded and
followed by whitespace or a line boundary. -/
theorem C8_tokenize :
    (∀ (line : String) (pos : Int),
      pos < 0 ∨ (line.length : Int) ≤ pos → isolate_token line pos = "") ∧
    (∀ (line : String) (pos : Int) (c : Char),
      c ∈ (isolate_token line pos).data → ¬ pyIsSpace c ∧ c ∉ delims) ∧
    (∀ (line : String) (pos : Int) (s : Nat) (t r : List Char),
      0 ≤ pos → pos < (line.length : Int) →
      t ≠ [] → (∀ c ∈ t, ¬ pyIsSpace c) →
      (replace_delims line).data.drop s = t ++ r →
      (r = [] ∨ ∃ c1 r2, r = c1 :: r2 ∧ pyIsSpace c1) →
      (s = 0 ∨ ∃ c0, (replace_delims line).data.get? (s - 1) = some c0 ∧
        pyIsSpace c0) →
      (s : Int) ≤ pos → pos ≤ (s : Int) + t.length →
      isolate_token line pos = String.mk t) := by
  refine ⟨?_, ?_, ?_⟩
  · intro line pos h
    unfold isolate_token
    rw [if_pos h]
  · intro line pos c hc
    unfold isolate_token at hc
    by_cases hb : pos < 0 ∨ (line.length : Int) ≤ pos
    · rw [if_pos hb] at hc
      simp at hc
    · rw [if_neg hb] at hc
      rcases hf : (runsTW 0 (replace_delims line).data).find?
          (fun st => decide ((st.1 : Int) ≤ pos ∧
            pos ≤ (st.1 : Int) + st.2.length)) with _ | st
      · rw [hf] at hc
        simp at hc
      · rw [hf] at hc
        rcases st with ⟨s, t⟩
        have hmem : (s, t) ∈ runsTW 0 (replace_delims line).data :=
          List.mem_of_find?_eq_some hf
        have hct : c ∈ t := hc
        have hprops := runsTW_chars (replace_delims line).data 0 s t hmem c hct
        exact ⟨hprops.1, replace_delims_no_delim line c hprops.2⟩
  · intro line pos s t r hpos0 hposlen ht hchars hdrop hafter hbefore h1 h2
    have hmem : (s, t) ∈ runsTW 0 (replace_delims line).data :=
      maxRun_mem_runsTW (replace_delims line).data 0 s t r (Nat.zero_le s) ht
        hchars (by rw [Nat.sub_zero]; exact hdrop) hafter
        (by
          rcases hbefore with hb | hb
          · exact Or.inl hb
          · exact Or.inr hb)
    exact isolate_token_of_mem line pos s t hpos0 hposlen hmem h1 h2

/-- Witness for `C8_tokenize` on `"mov eax,1"` at character 4: the comma
is substituted and the covering run is `eax`. -/
theorem C8_witness :
    isolate_token "mov eax,1" 4 = String.mk ['e', 'a', 'x'] :=
  C8_tokenize.2.2 "mov eax,1" 4 4 ['e', 'a', 'x'] [' ', '1'] (by decide)
    (by decide) (by decide) (by decide) (by rfl)
    (Or.inr ⟨' ', ['1'], rfl, by decide⟩)
    (Or.inr ⟨' ', by rfl, by decide⟩) (by decide) (by decide)

/-! ## C5: index construction -/

theorem addrRange_fold (u a0 : Nat) :
    ∀ (n : Nat) (m : List (Nat × (Nat × Nat))) (a : Nat),
      alookup ((List.range n).foldl
        (fun m2 i => aupd m2 (a0 + i) (u, i)) m) a =
      if a0 ≤ a ∧ a < a0 + n then some (u, a - a0) else alookup m a := by
  intro n
  induction n with
  | zero =>
    intro m a
    rw [if_neg (by omega)]
    rfl
  | succ n ih =>
    intro m a
    rw [List.range_succ, List.foldl_append, List.foldl_cons, List.foldl_nil,
      alookup_aupd, ih]
    by_cases he : a0 + n = a
    · rw [if_pos he, if_pos (by omega)]
      exact congrArg some (by rw [Prod.mk.injEq]; omega)
    · rw [if_neg he]
      by_cases hc : a0 ≤ a ∧ a < a0 + n
      · rw [if_pos hc, if_pos (by omega)]
      · rw [if_neg hc, if_neg (by omega)]

theorem addrMap_fold_some :
    ∀ (blocks : List ByteBlock) (acc : List (Nat × (Nat × Nat))) (a : Nat)
      (v : Nat × Nat),
      alookup (blocks.foldl
        (fun m b =>
          match b.address with
          | some a0 =>
            if a0 ≠ 0 then
              (List.range b.size).foldl (fun m2 i => aupd m2 (a0 + i) (b.uuid, i)) m
            else m
          | none => m) acc) a = some v →
      (∃ b ∈ blocks, ∃ a0, b.address = some a0 ∧ a0 ≠ 0 ∧ a0 ≤ a ∧
        a < a0 + b.size ∧ v = (b.uuid, a - a0)) ∨ alookup acc a = some v := by
  intro blocks
  induction blocks with
  | nil => intro acc a v h; exact Or.inr h
  | cons b bs ih =>
    intro acc a v h
    rw [List.foldl_cons] at h
    rcases ih _ a v h with hbs | hacc
    · rcases hbs with ⟨b2, hb2, rest⟩
      exact Or.inl ⟨b2, List.mem_cons_of_mem _ hb2, rest⟩
    · split at hacc
      · rename_i a0 haddr
        split at hacc
        · rename_i h0
          rw [addrRange_fold] at hacc
          split at hacc
          · rename_i hc
            exact Or.inl ⟨b, List.mem_cons_self _ _, a0, haddr, h0, hc.1, hc.2,
              (Option.some.inj hacc).symm⟩
          · exact Or.inr hacc
        · exact Or.inr hacc
      · exact Or.inr hacc

theorem addrMap_fold_isSome :
    ∀ (blocks : List ByteBlock) (acc : List (Nat × (Nat × Nat))) (a : Nat),
      ((∃ b ∈ blocks, ∃ a0, b.address = some a0 ∧ a0 ≠ 0 ∧ a0 ≤ a ∧
          a < a0 + b.size) ∨ (alookup acc a).isSome) →
      (alookup (blocks.foldl
        (fun m b =>
          match b.address with
          | some a0 =>
            if a0 ≠ 0 then
              (List.range b.size).foldl (fun m2 i => aupd m2 (a0 + i) (b.uuid, i)) m
            else m
          | none => m) acc) a).isSome := by
  intro blocks
  induction blocks with
  | nil =>
    intro acc a h
    rcases h with h | h
    · simp at h
    · exact h
  | cons b bs ih =>
    intro acc a h
    rw [List.foldl_cons]
    apply ih
    rcases h with ⟨b2, hb2, a0, ha, h0, h1, h2⟩ | hacc
    · rcases List.mem_cons.mp hb2 with hb2 | hb2
      · right
        subst hb2
        split
        · rename_i a02 haddr
          rw [haddr] at ha
          injection ha with ha
          subst ha
          rw [if_pos h0, addrRange_fold, if_pos ⟨h1, h2⟩]
          rfl
        · rename_i haddr
          rw [haddr] at ha
          exact absurd ha (by simp)
      · exact Or.inl ⟨b2, hb2, a0, ha, h0, h1, h2⟩
    · right
      split
      · rename_i a02 haddr
        split
        · rw [addrRange_fold]
          split
          · rfl
          · exact hacc
        · exact hacc
      · exact hacc

theorem optMapM_isSome {α β : Type} (f : α → Option β) :
    ∀ L : List α, (∀ x ∈ L, (f x).isSome) → ∃ R, optMapM f L = some R := by
  intro L
  induction L with
  | nil => intro _; exact ⟨[], rfl⟩
  | cons x xs ih =>
    intro h
    rcases Option.isSome_iff_exists.mp (h x (List.mem_cons_self _ _)) with ⟨y, hy⟩
    rcases ih (fun z hz => h z (List.mem_cons_of_mem _ hz)) with ⟨R, hR⟩
    exact ⟨y :: R, by simp [optMapM, hy, hR]⟩

theorem optMapM_mem_fwd {α β : Type} (f : α → Option β) :
    ∀ (L : List α) (R : List β), optMapM f L = some R →
      ∀ y ∈ R, ∃ x ∈ L, f x = some y := by
  intro L
  induction L with
  | nil =>
    intro R h y hy
    rw [show optMapM f [] = some [] from rfl] at h
    rw [← Option.some.inj h] at hy
    simp at hy
  | cons x xs ih =>
    intro R h y hy
    rw [show optMapM f (x :: xs) =
        (match f x, optMapM f xs with
         | some y, some ys => some (y :: ys)
         | _, _ => none) from rfl] at h
    rcases hfx : f x with _ | y0 <;> rw [hfx] at h
    · simp at h
    · rcases hrest : optMapM f xs with _ | R0 <;> rw [hrest] at h
      · simp at h
      · rw [← Option.some.inj h] at hy
        rcases List.mem_cons.mp hy with hy | hy
        · exact ⟨x, List.mem_cons_self _ _, hy ▸ hfx⟩
        · rcases ih R0 hrest y hy with ⟨x2, hx2, hfx2⟩
          exact ⟨x2, List.mem_cons_of_mem _ hx2, hfx2⟩

theorem optMapM_mem_bwd {α β : Type} (f : α → Option β) :
    ∀ (L : List α) (R : List β), optMapM f L = some R →
      ∀ x ∈ L, ∃ y ∈ R, f x = some y := by
  intro L
  induction L with
  | nil => intro R h x hx; simp at hx
  | cons x0 xs ih =>
    intro R h x hx
    rw [show optMapM f (x0 :: xs) =
        (match f x0, optMapM f xs with
         | some y, some ys => some (y :: ys)
         | _, _ => none) from rfl] at h
    rcases hfx : f x0 with _ | y0 <;> rw [hfx] at h
    · simp at h
    · rcases hrest : optMapM f xs with _ | R0 <;> rw [hrest] at h
      · simp at h
      · rw [← Option.some.inj h]
        rcases List.mem_cons.mp hx with hx | hx
        · exact ⟨y0, List.mem_cons_self _ _, hx ▸ hfx⟩
        · rcases ih R0 hrest x hx with ⟨y2, hy2, hfy2⟩
          exact ⟨y2, List.mem_cons_of_mem _ hy2, hfy2⟩

theorem pyEnum_mem {α : Type} :
    ∀ (l : List α) (i j : Nat) (x : α),
      (j, x) ∈ pyEnum i l ↔ (i ≤ j ∧ l.get? (j - i) = some x) := by
  intro l
  induction l with
  | nil => intro i j x; simp [pyEnum]
  | cons y ys ih =>
    intro i j x
    rw [show pyEnum i (y :: ys) = (i, y) :: pyEnum (i + 1) ys from rfl]
    rw [List.mem_cons, ih, Prod.mk.injEq]
    constructor
    · rintro (⟨hj, hx⟩ | ⟨hj, hget⟩)
      · subst hj
        rw [Nat.sub_self, List.get?_cons_zero]
        exact ⟨Nat.le_refl _, by rw [hx]⟩
      · refine ⟨by omega, ?_⟩
        rw [show j - i = (j - (i + 1)) + 1 from by omega, List.get?_cons_succ]
        exact hget
    · rintro ⟨hij, hget⟩
      by_cases hj : j = i
      · subst hj
        rw [Nat.sub_self, List.get?_cons_zero] at hget
        exact Or.inl ⟨rfl, (Option.some.inj hget).symm⟩
      · right
        refine ⟨by omega, ?_⟩
        rw [show j - i = (j - (i + 1)) + 1 from by omega,
          List.get?_cons_succ] at hget
        exact hget

/-- Claim C5 (counterexample).  One block covers `[0x10, 0x12)`; the
listing's only line carries `# EA: 0x100`, inside no block.  The claim
predicts the line is skipped and construction yields an (empty) index;
the code evaluates `address_to_uuid_displacement[0x100]` and raises
`KeyError`, modelled by `none`. -/
theorem C5_counterexample :
    get_line_offset ⟨[⟨1, some 16, 2⟩], []⟩ ["nop # EA: 0x100"] = none := rfl

/-- Claim C5 (amended): *provided every* `# EA:` address of the listing
lies inside some block with a present, nonzero address, index
construction succeeds, produces entries for exactly the lines carrying an
`# EA:` comment, and every entry's `(uuid, displacement)` points inside
such a block.  When some line's address is covered by no block,
construction raises `KeyError` instead of skipping the line (see the
counterexample). -/
theorem C5_amended (ir : IRData) (docLines : List String)
    (hcov : ∀ p ∈ addressLines docLines,
      ∃ b ∈ ir.byteBlocks, ∃ a0, b.address = some a0 ∧ a0 ≠ 0 ∧
        a0 ≤ p.1 ∧ p.1 < a0 + b.size) :
    ∃ res, get_line_offset ir docLines = some res ∧
      (∀ l : Int, (∃ ud, (l, ud) ∈ res) ↔
        (∃ i : Nat, (i : Int) = l ∧ ∃ line a, docLines.get? i = some line ∧
          eaAddr line = some a)) ∧
      (∀ l u d, (l, (u, d)) ∈ res → ∃ b ∈ ir.byteBlocks, b.uuid = u ∧
        ∃ a0, b.address = some a0 ∧ a0 ≠ 0 ∧ d < b.size) := by
  have hsome : ∀ p ∈ addressLines docLines,
      ((alookup (addrMap ir) p.1).map
        (fun ud => ((p.2 : Int), ud))).isSome := by
    intro p hp
    have h2 : (alookup (addrMap ir) p.1).isSome :=
      addrMap_fold_isSome ir.byteBlocks [] p.1 (Or.inl (hcov p hp))
    rcases Option.isSome_iff_exists.mp h2 with ⟨ud, hud⟩
    rw [hud]
    rfl
  obtain ⟨res, hres⟩ := optMapM_isSome
    (fun (al : Nat × Int) => (alookup (addrMap ir) al.1).map
      (fun ud => (al.2, ud)))
    (addressLines docLines) hsome
  have hg : get_line_offset ir docLines = some res := hres
  refine ⟨res, hg, ?_, ?_⟩
  · intro l
    constructor
    · rintro ⟨ud, hmem⟩
      rcases optMapM_mem_fwd _ _ _ hres (l, ud) hmem with ⟨al, hal, hf⟩
      rcases hlk : alookup (addrMap ir) al.1 with _ | ud2 <;> rw [hlk] at hf
      · simp at hf
      · simp only [Option.map_some'] at hf
        have hpair := Option.some.inj hf
        have hl : al.2 = l := (Prod.mk.injEq _ _ _ _ ▸ hpair).1
        have hal2 : al ∈ (pyEnum 0 docLines).filterMap
            (fun il => (eaAddr il.2).map (fun a => (a, (il.1 : Int)))) :=
          (List.mem_insertionSort _).mp hal
        rcases List.mem_filterMap.mp hal2 with ⟨il, hil, hilf⟩
        rcases il with ⟨i, line⟩
        rcases hea : eaAddr line with _ | a <;> rw [hea] at hilf
        · simp at hilf
        · simp only [Option.map_some'] at hilf
          have hae := Option.some.inj hilf
          refine ⟨i, ?_, line, a, ?_, hea⟩
          · have h3 : ((i : Nat) : Int) = al.2 := by rw [← hae]
            exact h3.trans hl
          · have := (pyEnum_mem docLines 0 i line).mp hil
            rw [Nat.sub_zero] at this
            exact this.2
    · rintro ⟨i, hil, line, a, hget, hea⟩
      have hmemAL : ((a, (i : Int)) : Nat × Int) ∈ addressLines docLines := by
        apply (List.mem_insertionSort _).mpr
        apply List.mem_filterMap.mpr
        refine ⟨(i, line), ?_, ?_⟩
        · exact (pyEnum_mem docLines 0 i line).mpr
            ⟨Nat.zero_le i, by rw [Nat.sub_zero]; exact hget⟩
        · rw [hea]
          rfl
      rcases optMapM_mem_bwd _ _ _ hres (a, (i : Int)) hmemAL with ⟨y, hy, hfy⟩
      rcases hlk : alookup (addrMap ir) a with _ | ud2 <;> rw [hlk] at hfy
      · simp at hfy
      · simp only [Option.map_some'] at hfy
        rw [← Option.some.inj hfy] at hy
        exact ⟨ud2, by rw [← hil]; exact hy⟩
  · intro l u d hmem
    rcases optMapM_mem_fwd _ _ _ hres (l, (u, d)) hmem with ⟨al, hal, hf⟩
    rcases hlk : alookup (addrMap ir) al.1 with _ | ud2 <;> rw [hlk] at hf
    · simp at hf
    · simp only [Option.map_some'] at hf
      have hpair := Option.some.inj hf
      have hud : ud2 = (u, d) := (Prod.mk.injEq _ _ _ _ ▸ hpair).2
      have hsome2 : alookup (addrMap ir) al.1 = some ud2 := hlk
      rcases addrMap_fold_some ir.byteBlocks [] al.1 ud2 hsome2 with
        ⟨b, hb, a0, haddr, h0, h1, h2, hv⟩ | habs
      · rw [hv] at hud
        have he : b.uuid = u ∧ al.1 - a0 = d :=
          Prod.mk.injEq _ _ _ _ ▸ hud
        refine ⟨b, hb, he.1, a0, haddr, h0, ?_⟩
        have hd := he.2
        omega
      · exact absurd habs (by simp [alookup])

/-- Witness for `C5_amended`: one block `[0x10, 0x12)` and a three-line
listing whose `# EA:` lines both fall inside it. -/
theorem C5_witness :
    ∃ res, get_line_offset ⟨[⟨1, some 16, 2⟩], []⟩
        ["a # EA: 0x10", "b", "c # EA: 0x11"] = some res ∧
      (∀ l : Int, (∃ ud, (l, ud) ∈ res) ↔
        (∃ i : Nat, (i : Int) = l ∧ ∃ line a,
          (["a # EA: 0x10", "b", "c # EA: 0x11"] : List String).get? i =
            some line ∧ eaAddr line = some a)) ∧
      (∀ l u d, (l, (u, d)) ∈ res → ∃ b ∈ ({⟨1, some 16, 2⟩} : List ByteBlock),
        b.uuid = u ∧ ∃ a0, b.address = some a0 ∧ a0 ≠ 0 ∧ d < b.size) :=
  C5_amended ⟨[⟨1, some 16, 2⟩], []⟩ ["a # EA: 0x10", "b", "c # EA: 0x11"]
    (by
      intro p hp
      rw [show addressLines ["a # EA: 0x10", "b", "c # EA: 0x11"] =
          [((16 : Nat), (0 : Int)), (17, 2)] from rfl] at hp
      rcases List.mem_cons.mp hp with heq | hp2
      · subst heq
        exact ⟨⟨1, some 16, 2⟩, List.mem_cons_self _ _, 16, rfl, by decide,
          by decide, by decide⟩
      · rw [List.mem_singleton] at hp2
        subst hp2
        exact ⟨⟨1, some 16, 2⟩, List.mem_cons_self _ _, 16, rfl, by decide,
          by decide, by decide⟩)

/-- Claim C4: batch atomicity of `did_save`.  With rewriting enabled, a
non-empty dirty set, cached GTIRB and indexes, extractable block texts, a
non-empty set of non-empty-assembly blocks and a known path: if the
assembler raises, the dirty set and the written-BIR list are unchanged;
if it succeeds, the BIR path is appended to the writes and the
document's dirty set is deleted. -/
theorem C4_atomicity (st : ServerState) (uri : String) (docLines : List String)
    (applyResult : Except String Unit) (mb : List ByteBlock) (ir : IRData)
    (idx : List (Int × Offset) × List (Offset × Int)) (asms : List String)
    (path : String)
    (hrw : st.rewriteEnabled = true)
    (hmb : alookup st.modifiedBlocks uri = some mb)
    (hne : mb.isEmpty = false)
    (hir : alookup st.currentGtirbs uri = some ir)
    (hidx : alookup st.currentIndexes uri = some idx)
    (hasm : optMapM (fun b => block_text idx.2 b docLines) mb = some asms)
    (hblk : ((mb.zip asms).filter (fun p => p.2 ≠ "")).isEmpty = false)
    (hpath : alookup st.gtirbPathMap uri = some path) :
    (∀ e, applyResult = .error e →
      (did_save st uri docLines applyResult).modifiedBlocks = st.modifiedBlocks ∧
      (did_save st uri docLines applyResult).birWrites = st.birWrites) ∧
    (applyResult = .ok () →
      (did_save st uri docLines applyResult).modifiedBlocks =
        aremove st.modifiedBlocks uri ∧
      (did_save st uri docLines applyResult).birWrites =
        st.birWrites ++ [path]) := by
  constructor
  · rintro e rfl
    refine ⟨?_, ?_⟩ <;>
      (simp only [did_save, hrw, hmb, hne, hir, hidx, hasm, hpath, hblk]; simp)
  · rintro rfl
    cases hsr : st.serverRemote <;>
      refine ⟨?_, ?_⟩ <;>
        (simp only [did_save, hrw, hmb, hne, hir, hidx, hasm, hpath, hblk, hsr];
          simp)

/-- Witness for `C4_atomicity`: one dirty block whose two lines read
`mov eax` / `ret`; an assembler error leaves the dirty set and writes
untouched, success writes `p.gtirb` and clears the URI's dirty set. -/
theorem C4_witness :
    (did_save ⟨true, false, ["u"], [("u", ⟨[⟨1, some 16, 2⟩], []⟩)],
        [("u", ([], [(⟨⟨1, some 16, 2⟩, 0⟩, 1), (⟨⟨1, some 16, 2⟩, 1⟩, 2)]))],
        [("u", [⟨1, some 16, 2⟩])], [("u", "p.gtirb")], [], [], [], [], []⟩
        "u" ["", "mov eax", "ret"] (.error "bad")).modifiedBlocks =
      [("u", [⟨1, some 16, 2⟩])] ∧
    (did_save ⟨true, false, ["u"], [("u", ⟨[⟨1, some 16, 2⟩], []⟩)],
        [("u", ([], [(⟨⟨1, some 16, 2⟩, 0⟩, 1), (⟨⟨1, some 16, 2⟩, 1⟩, 2)]))],
        [("u", [⟨1, some 16, 2⟩])], [("u", "p.gtirb")], [], [], [], [], []⟩
        "u" ["", "mov eax", "ret"] (.error "bad")).birWrites = [] ∧
    (did_save ⟨true, false, ["u"], [("u", ⟨[⟨1, some 16, 2⟩], []⟩)],
        [("u", ([], [(⟨⟨1, some 16, 2⟩, 0⟩, 1), (⟨⟨1, some 16, 2⟩, 1⟩, 2)]))],
        [("u", [⟨1, some 16, 2⟩])], [("u", "p.gtirb")], [], [], [], [], []⟩
        "u" ["", "mov eax", "ret"] (.ok ())).modifiedBlocks =
      aremove [("u", [⟨1, some 16, 2⟩])] "u" ∧
    (did_save ⟨true, false, ["u"], [("u", ⟨[⟨1, some 16, 2⟩], []⟩)],
        [("u", ([], [(⟨⟨1, some 16, 2⟩, 0⟩, 1), (⟨⟨1, some 16, 2⟩, 1⟩, 2)]))],
        [("u", [⟨1, some 16, 2⟩])], [("u", "p.gtirb")], [], [], [], [], []⟩
        "u" ["", "mov eax", "ret"] (.ok ())).birWrites = ["p.gtirb"] := by
  have he := (C4_atomicity
    ⟨true, false, ["u"], [("u", ⟨[⟨1, some 16, 2⟩], []⟩)],
      [("u", ([], [(⟨⟨1, some 16, 2⟩, 0⟩, 1), (⟨⟨1, some 16, 2⟩, 1⟩, 2)]))],
      [("u", [⟨1, some 16, 2⟩])], [("u", "p.gtirb")], [], [], [], [], []⟩
    "u" ["", "mov eax", "ret"] (.error "bad") [⟨1, some 16, 2⟩]
    ⟨[⟨1, some 16, 2⟩], []⟩
    ([], [(⟨⟨1, some 16, 2⟩, 0⟩, 1), (⟨⟨1, some 16, 2⟩, 1⟩, 2)])
    ["mov eax\nret"] "p.gtirb"
    rfl rfl rfl rfl rfl rfl rfl rfl).1 "bad" rfl
  have ho := (C4_atomicity
    ⟨true, false, ["u"], [("u", ⟨[⟨1, some 16, 2⟩], []⟩)],
      [("u", ([], [(⟨⟨1, some 16, 2⟩, 0⟩, 1), (⟨⟨1, some 16, 2⟩, 1⟩, 2)]))],
      [("u", [⟨1, some 16, 2⟩])], [("u", "p.gtirb")], [], [], [], [], []⟩
    "u" ["", "mov eax", "ret"] (.ok ()) [⟨1, some 16, 2⟩]
    ⟨[⟨1, some 16, 2⟩], []⟩
    ([], [(⟨⟨1, some 16, 2⟩, 0⟩, 1), (⟨⟨1, some 16, 2⟩, 1⟩, 2)])
    ["mov eax\nret"] "p.gtirb"
    rfl rfl rfl rfl rfl rfl rfl rfl).2 rfl
  exact ⟨he.1, he.2, ho.1, ho.2⟩

/-- Claim C9 (counterexample).  A cached document and an unknown symbol:
the handler returns `None` but posts no `show_message` diagnostic — the
`shown` list is unchanged; only a `logger.warning` line is recorded. -/
theorem C9_counterexample :
    (get_address_of_symbol ⟨true, false, ["u"], [("u", ⟨[], []⟩)],
        [], [], [], [], [], ["seen"], [], []⟩ "u" "foo").1 = .ok none ∧
    (get_address_of_symbol ⟨true, false, ["u"], [("u", ⟨[], []⟩)],
        [], [], [], [], [], ["seen"], [], []⟩ "u" "foo").2.shown = ["seen"] :=
  ⟨rfl, rfl⟩

/-- Claim C9 (amended): for a cached document, the handler returns the
hex string of the referent block's address when the named symbol has a
block referent with a present address; when the symbol is unknown, its
referent is missing, or it is a ProxyBlock, it returns absent after only
a `logger.warning` line — no `show_message` diagnostic is posted
(`shown` is unchanged).  (A block referent whose address is `None` makes
`hex(None)` raise `TypeError`, also not a diagnostic.) -/
theorem C9_amended (st : ServerState) (uri name : String) (ir : IRData)
    (hir : alookup st.currentGtirbs uri = some ir)
    (hws : uri ∈ st.workspaceDocs) :
    (∀ sym b a, symbol_for_name ir name = some sym →
      sym.referent = .block b → b.address = some a →
      get_address_of_symbol st uri name = (.ok (some (pyHex a)), st)) ∧
    ((symbol_for_name ir name = none ∨
      (∃ sym, symbol_for_name ir name = some sym ∧
        (sym.referent = .absent ∨ ∃ u, sym.referent = .proxy u))) →
      (get_address_of_symbol st uri name).1 = .ok none ∧
      (get_address_of_symbol st uri name).2.shown = st.shown ∧
      (get_address_of_symbol st uri name).2.logged =
        st.logged ++ [" " ++ name ++ " does not have an address"]) := by
  constructor
  · intro sym b a hsym href haddr
    simp only [get_address_of_symbol, hir, hws, hsym, href, haddr, if_pos]
  · rintro (hnone | ⟨sym, hsym, href⟩)
    · refine ⟨?_, ?_, ?_⟩ <;>
        simp only [get_address_of_symbol, hir, hws, hnone, if_pos]
    · rcases href with habs | ⟨u, hpx⟩
      · refine ⟨?_, ?_, ?_⟩ <;>
          simp only [get_address_of_symbol, hir, hws, hsym, habs, if_pos]
      · refine ⟨?_, ?_, ?_⟩ <;>
          simp only [get_address_of_symbol, hir, hws, hsym, hpx, if_pos]

/-- Witness for `C9_amended`: the spec's own example — symbol `.L_1820`
with a block referent at address `0x1820` yields `hex(6176)`. -/
theorem C9_witness :
    get_address_of_symbol ⟨true, false, ["u"],
        [("u", ⟨[⟨5, some 6176, 4⟩],
          [⟨".L_1820", .block ⟨5, some 6176, 4⟩⟩]⟩)],
        [], [], [], [], [], [], [], []⟩ "u" ".L_1820" =
      (.ok (some (pyHex 6176)),
        ⟨true, false, ["u"],
          [("u", ⟨[⟨5, some 6176, 4⟩],
            [⟨".L_1820", .block ⟨5, some 6176, 4⟩⟩]⟩)],
          [], [], [], [], [], [], [], []⟩) :=
  (C9_amended ⟨true, false, ["u"],
      [("u", ⟨[⟨5, some 6176, 4⟩],
        [⟨".L_1820", .block ⟨5, some 6176, 4⟩⟩]⟩)],
      [], [], [], [], [], [], [], []⟩ "u" ".L_1820"
    ⟨[⟨5, some 6176, 4⟩], [⟨".L_1820", .block ⟨5, some 6176, 4⟩⟩]⟩
    rfl (by decide)).1
    ⟨".L_1820", .block ⟨5, some 6176, 4⟩⟩ ⟨5, some 6176, 4⟩ 6176 rfl rfl rfl

/-- Claim C10: with rewriting disabled, `did_change` returns right after
its warning — the index maps and the modified-blocks sets are untouched —
and `did_save` likewise changes no session state beyond its messages (in
particular no BIR write). -/
theorem C10_frame (st : ServerState) (uri : String) (changes : List ChangeEvent)
    (docLines : List String) (applyResult : Except String Unit)
    (hrw : st.rewriteEnabled = false) :
    (did_change st uri changes).currentIndexes = st.currentIndexes ∧
    (did_change st uri changes).modifiedBlocks = st.modifiedBlocks ∧
    (did_change st uri changes).birWrites = st.birWrites ∧
    (did_save st uri docLines applyResult).currentIndexes = st.currentIndexes ∧
    (did_save st uri docLines applyResult).modifiedBlocks = st.modifiedBlocks ∧
    (did_save st uri docLines applyResult).birWrites = st.birWrites := by
  refine ⟨?_, ?_, ?_, ?_, ?_, ?_⟩ <;>
    simp [did_change, did_save, hrw]

/-- Witness for `C10_frame`: a disabled-rewriting state with one cached
index; an edit and a save leave the maps, dirty sets and writes as they
were. -/
theorem C10_witness :
    (did_change ⟨false, false, ["u"], [], [("u", ([], []))], [], [],
        [], [], [], [], []⟩ "u" [⟨0, 0, "x"⟩]).currentIndexes =
      [("u", ([], []))] ∧
    (did_change ⟨false, false, ["u"], [], [("u", ([], []))], [], [],
        [], [], [], [], []⟩ "u" [⟨0, 0, "x"⟩]).modifiedBlocks = [] ∧
    (did_change ⟨false, false, ["u"], [], [("u", ([], []))], [], [],
        [], [], [], [], []⟩ "u" [⟨0, 0, "x"⟩]).birWrites = [] ∧
    (did_save ⟨false, false, ["u"], [], [("u", ([], []))], [], [],
        [], [], [], [], []⟩ "u" ["l"] (.ok ())).currentIndexes =
      [("u", ([], []))] ∧
    (did_save ⟨false, false, ["u"], [], [("u", ([], []))], [], [],
        [], [], [], [], []⟩ "u" ["l"] (.ok ())).modifiedBlocks = [] ∧
    (did_save ⟨false, false, ["u"], [], [("u", ([], []))], [], [],
        [], [], [], [], []⟩ "u" ["l"] (.ok ())).birWrites = [] :=
  C10_frame ⟨false, false, ["u"], [], [("u", ([], []))], [], [],
      [], [], [], [], []⟩ "u" [⟨0, 0, "x"⟩] ["l"] (.ok ()) rfl

/-- Claim C1 (code bug).  Symbol `foo` resolves to a block whose first
indexed line is 1, but no label line precedes it:
`preceding_function_line` returns `None`, the source has no
`?? target` fallback, and the immediately following
`current_lines[line]` subscript raises
`TypeError: list indices must be integers, not NoneType` instead of
returning a Location on line 1. -/
theorem C1_crash :
    get_definition ["jmp foo", "mov eax, 1 # EA: 0x5"]
      ⟨[⟨7, some 5, 1⟩], [⟨"foo", .block ⟨7, some 5, 1⟩⟩]⟩
      [(1, ⟨⟨7, some 5, 1⟩, 0⟩)] 0 4 =
    .crash "TypeError: list indices must be integers, not NoneType" := rfl
